import Mathlib

/-!
# Verification of the oxischeme heap and binding core

A shallow embedding, in Lean 4, of the memory-management and binding core of
the oxischeme Scheme interpreter (`src/heap.rs`, `src/environment.rs`,
`src/value.rs`), together with theorems settling the specification claims
about it.

Modelling conventions:

* Rust `Vec<T>` becomes `List T` kept in the same order as the vector
  (index 0 first).  `Vec::push` appends at the end and `Vec::pop` removes
  the last element; the helper `vecPop` mirrors the latter.
* Rust `HashMap` becomes an association list whose keys are unique by
  construction (insertion only appends when the key is absent, otherwise it
  replaces the stored value in place).
* Machine integers (`usize`, `u32`, `u64`) become `Nat`; no arithmetic in
  the modelled code can overflow at the sizes involved.
* A panic (`panic!`, failed `assert!`, `expect` on `None`) is modelled by
  returning `none` from an `Option`-valued function.
* Raw arena pointers are modelled by giving every arena a stable numeric
  `id`; an `ArenaPtr` is the pair of an arena id and a slot index, which is
  exactly the identity that `ArenaPtr`'s `PartialEq` implements.
-/

namespace Oxischeme

/-- `Vec::pop`: remove and return the *last* element of a vector. -/
def vecPop {α : Type} (l : List α) : Option (α × List α) :=
  match l.getLast? with
  | none => none
  | some x => some (x, l.dropLast)

/-- Number of `false` entries of a list of booleans (used to bound the
garbage collector's mark loop). -/
def countFalse (l : List Bool) : Nat :=
  (l.filter (fun b => !b)).length

/-! ## `environment.rs`: the static environment

The embedding of `Environment` from `src/environment.rs`.  A frame
(`HashMap<String, u32>`) is an association list with unique keys; the
stack of frames is kept **youngest (top) first**, i.e. reversed with
respect to the Rust `Vec` (whose top is the last element).  `lookup`
iterates `self.bindings.iter().rev()` — from the top down — which is
exactly head-first iteration over the reversed representation. -/

/-- One lexical block: `HashMap<String, u32>` as an association list. -/
abbrev Frame : Type := List (String × Nat)

/-- `HashMap::get`: the value bound to `name`, if any. -/
def Frame.get (f : Frame) (name : String) : Option Nat :=
  ((List.find? (fun p => p.1 == name) f)).map (fun p => p.2)

/-- `HashMap::len`: the number of bindings in the frame. -/
def Frame.size (f : Frame) : Nat :=
  List.length f

/-- `HashMap::insert` for a key known to be absent: append the binding. -/
def Frame.insert (f : Frame) (name : String) (slot : Nat) : Frame :=
  f ++ [(name, slot)]

/-- `Environment`: the stack of lexical blocks, **youngest frame first**. -/
structure Environment : Type where
  bindings : List Frame

/-- `Environment::new`: a single empty global frame. -/
def Environment.new : Environment :=
  ⟨[[]]⟩

/-- `Environment::define`.  If the youngest frame already binds `name`,
return its existing `(0, slot)` and leave the environment unchanged;
otherwise bind `name` to the next slot index (the current number of
bindings in the youngest frame) and return `(0, new_slot)`.  The
(unreachable in the source: the frame stack is never empty) case of an
empty stack returns `(0, 0)` and leaves the environment unchanged. -/
def Environment.define (e : Environment) (name : String) :
    (Nat × Nat) × Environment :=
  match e.bindings with
  | [] => ((0, 0), e)
  | f :: rest =>
    match f.get name with
    | some n => ((0, n), e)
    | none =>
      let n := f.size
      ((0, n), ⟨f.insert name n :: rest⟩)

/-- `Environment::extend`: push a fresh frame and `define` each name in
order. -/
def Environment.extend (e : Environment) (names : List String) : Environment :=
  names.foldl (fun env n => (env.define n).2) ⟨[] :: e.bindings⟩

/-- `Environment::pop`: remove the youngest frame.  The source asserts
that the global frame is never popped; a pop with only one frame left is
the assertion failure, modelled as `none`. -/
def Environment.pop (e : Environment) : Option Environment :=
  if 1 < e.bindings.length then some ⟨e.bindings.tail⟩ else none

/-- `Environment::lookup`: scan the frames from the top down; on the first
frame binding `name` return `(i, j)` where `i` is the number of frames
above it skipped and `j` the bound slot; otherwise `None`. -/
def Environment.lookup (e : Environment) (name : String) : Option (Nat × Nat) :=
  go 0 e.bindings
where
  go : Nat → List Frame → Option (Nat × Nat)
  | _, [] => none
  | i, f :: rest =>
    match f.get name with
    | some j => some (i, j)
    | none => go (i + 1) rest

/-! ## `value.rs`: Scheme values and `Value::len`

`src/value.rs` is the self-contained early value module.  Its `Value`
type holds a `ConsPtr` in its `Pair` variant; dereferencing the pointer
yields the `Cons`'s `car` and `cdr`.  The claims about `Value::len`
quantify over finite `cdr`-chains (proper and improper lists), on which
the pointer graph is acyclic, so the embedding unfolds each `ConsPtr`
into the pair of values it dereferences to.  Heap-allocated strings and
symbols are likewise represented by their referents; `len` never looks
inside them. -/

inductive Value : Type where
  /-- The empty list: `()`. -/
  | EmptyList : Value
  /-- A pair, holding (the dereference of) its `ConsPtr`: car and cdr. -/
  | Pair (car : Value) (cdr : Value) : Value
  /-- A heap-allocated string. -/
  | String (s : String) : Value
  /-- A symbol (a pointer to an interned string). -/
  | Symbol (s : String) : Value
  /-- A 64-bit integer. -/
  | Integer (i : Int) : Value
  /-- A boolean. -/
  | Boolean (b : Bool) : Value
  /-- A character. -/
  | Character (c : Char) : Value

/-- `Value::len`: assuming this value is a proper list, get its length.
`Result<u64, ()>` is `Except Unit Nat`. -/
def Value.len : Value → Except Unit Nat
  | .EmptyList => .ok 0
  | .Pair _ cdr =>
    match cdr.len with
    | .ok n => .ok (n + 1)
    | .error e => .error e
  | _ => .error ()

/-- A proper list of `n` cons cells: a `cdr`-chain of `n` pairs ending in
the empty list (the spec's notion of "proper list" with its cell count). -/
inductive ProperList : Value → Nat → Prop where
  | nil : ProperList .EmptyList 0
  | cons (car cdr : Value) (n : Nat) :
      ProperList cdr n → ProperList (.Pair car cdr) (n + 1)

/-- An improper list: a `cdr`-chain of pairs (possibly empty) ending in a
value that is neither a pair nor the empty list. -/
inductive ImproperList : Value → Prop where
  | tail (v : Value) :
      (∀ car cdr, v ≠ .Pair car cdr) → v ≠ .EmptyList → ImproperList v
  | cons (car cdr : Value) : ImproperList cdr → ImproperList (.Pair car cdr)

/-! ## `heap.rs`: arenas, pointers, GC things

The embedding of the memory manager.  An arena's raw address — the
identity component of `ArenaPtr`'s `PartialEq` — is modelled by a stable
numeric `id` assigned at arena creation. -/

/-- Modelled from the spec: `read::Location` (`read.rs` is not under
`src/`); a source location is a `(file, line, column)` triple (§4.9). -/
structure Location : Type where
  file : String
  line : Nat
  column : Nat
deriving DecidableEq, Repr

/-- `ArenaPtr<T>`: the pair of (the identity of) an arena and a slot
index.  `PartialEq` on the source type compares exactly these two
components. -/
structure ArenaPtr : Type where
  arenaId : Nat
  index : Nat
deriving DecidableEq, Repr

/-- `GcThing`: the union of the various types that are GC things. -/
inductive GcThing : Type where
  | Cons (p : ArenaPtr)
  | String (p : ArenaPtr)
  | Activation (p : ArenaPtr)
  | Procedure (p : ArenaPtr)
deriving DecidableEq, Repr

/-- Modelled from the spec: the `Value` type of the heap-integrated value
module (the version of `value.rs` that `heap.rs` imports `Procedure` and
`ToGcThing` from is not under `src/`; `src/value.rs` is the earlier
self-contained snapshot).  Per §3, a value is a leaf (empty list,
integer, boolean, character) or a tagged slot handle (pair, string,
symbol, procedure). -/
inductive HeapValue : Type where
  | EmptyList
  | Pair (p : ArenaPtr)
  | String (p : ArenaPtr)
  | Symbol (p : ArenaPtr)
  | Procedure (p : ArenaPtr)
  | Integer (i : Int)
  | Boolean (b : Bool)
  | Character (c : Char)
deriving DecidableEq, Repr

/-- Modelled from the spec: `Value::to_gc_thing` (§4.3) — the slot handle
carried by a pair/string/symbol/procedure value; leaves yield nothing. -/
def HeapValue.to_gc_thing : HeapValue → Option GcThing
  | .Pair p => some (.Cons p)
  | .String p => some (.String p)
  | .Symbol p => some (.String p)
  | .Procedure p => some (.Procedure p)
  | _ => none

/-- `Cons`: a pair of `car` and `cdr` values. -/
structure Cons : Type where
  car : HeapValue
  cdr : HeapValue
deriving DecidableEq, Repr

/-- `Default for Cons`: both fields are the empty list. -/
instance : Inhabited Cons := ⟨⟨.EmptyList, .EmptyList⟩⟩

/-- Modelled from the spec: `Trace for Cons` (§4.3) — `car` and `cdr` if
they carry a slot handle; leaves dropped. -/
def Cons.trace (c : Cons) : List GcThing :=
  [c.car, c.cdr].filterMap HeapValue.to_gc_thing

/-- `Activation` (`src/environment.rs`): argument values and an optional
parent activation. -/
structure Activation : Type where
  parent : Option ArenaPtr
  args : List HeapValue
deriving DecidableEq, Repr

/-- `Default for Activation`: no parent, no args. -/
instance : Inhabited Activation := ⟨⟨none, []⟩⟩

/-- `Trace for Activation` (`src/environment.rs`): each arg's slot handle
(if it carries one), then the parent activation if present. -/
def Activation.trace (a : Activation) : List GcThing :=
  a.args.filterMap HeapValue.to_gc_thing ++
    (match a.parent with
     | some p => [GcThing.Activation p]
     | none => [])

/-- Modelled from the spec: `Procedure` (§3, §4.3) — a parameter-name
list (a pair chain), a body expression, and the captured enclosing
activation; its definition is in the value module missing from `src/`.
The captured activation is optional so that a default (never-traced,
never-published) pool slot exists. -/
structure Procedure : Type where
  params : HeapValue
  body : HeapValue
  act : Option ArenaPtr
deriving DecidableEq, Repr

instance : Inhabited Procedure := ⟨⟨.EmptyList, .EmptyList, none⟩⟩

/-- Modelled from the spec: `Trace for Procedure` (§4.3) — the
parameter-name list, the body, and the captured activation. -/
def Procedure.trace (p : Procedure) : List GcThing :=
  [p.params, p.body].filterMap HeapValue.to_gc_thing ++
    (match p.act with
     | some a => [GcThing.Activation a]
     | none => [])

/-- `Arena<T>`: a pre-allocated object pool, the free list of un-used
indices, and the mark bitset.  `id` models the arena's stable address. -/
structure Arena (T : Type) : Type where
  id : Nat
  pool : List T
  free : List Nat
  marked : List Bool
deriving DecidableEq, Repr

/-- `Arena::new(capacity)`: a pool of default values, a full free list
`[0, capacity)`, and a cleared mark bitset. -/
def Arena.new (T : Type) [Inhabited T] (id capacity : Nat) : Arena T :=
  { id := id
    pool := List.replicate capacity default
    free := List.range capacity
    marked := List.replicate capacity false }

/-- `Arena::capacity`: the length of the pool. -/
def Arena.capacity {T : Type} (a : Arena T) : Nat :=
  a.pool.length

/-- `Arena::is_full`: the free list is empty. -/
def Arena.is_full {T : Type} (a : Arena T) : Bool :=
  a.free.isEmpty

/-- `Arena::is_empty`: the free list is as long as the capacity. -/
def Arena.is_empty {T : Type} (a : Arena T) : Bool :=
  a.free.length == a.capacity

/-- `Arena::allocate`: pop the free list and hand out a pointer to that
index; the `None` branch is the `"Arena is at capacity!"` panic. -/
def Arena.allocate {T : Type} (a : Arena T) : Option (ArenaPtr × Arena T) :=
  (vecPop a.free).map (fun x => (⟨a.id, x.1⟩, { a with free := x.2 }))

/-- `ArenaPtr::mark`: set the mark bit of this slot. -/
def Arena.markIdx {T : Type} (a : Arena T) (i : Nat) : Arena T :=
  { a with marked := a.marked.set i true }

/-- `ArenaPtr::is_marked`: read the mark bit of this slot. -/
def Arena.isMarkedIdx {T : Type} (a : Arena T) (i : Nat) : Bool :=
  a.marked.getD i false

/-- `Arena::sweep`: the free list becomes the unmarked indices (in
increasing order, as the source collects `0..capacity`), and the mark
bitset is cleared. -/
def Arena.sweep {T : Type} (a : Arena T) : Arena T :=
  { a with
    free := (List.range a.capacity).filter (fun n => !(a.marked.getD n false))
    marked := List.replicate a.marked.length false }

/-- `ArenaSet<T>`: the per-arena capacity, the arenas, and (a model of
the OS allocator) the next fresh arena address. -/
structure ArenaSet (T : Type) : Type where
  capacity : Nat
  arenas : List (Arena T)
  nextId : Nat
deriving DecidableEq, Repr

/-- `ArenaSet::new`. -/
def ArenaSet.new (T : Type) (capacity : Nat) : ArenaSet T :=
  { capacity := capacity, arenas := [], nextId := 0 }

/-- `ArenaSet::sweep`: sweep every arena, then deallocate the arenas that
contain no reachable object. -/
def ArenaSet.sweep {T : Type} (s : ArenaSet T) : ArenaSet T :=
  { s with arenas := (s.arenas.map Arena.sweep).filter (fun a => !a.is_empty) }

/-- The linear scan inside `ArenaSet::allocate`: allocate from the first
arena that is not full. -/
def ArenaSet.allocFromList {T : Type} :
    List (Arena T) → Option (ArenaPtr × List (Arena T))
  | [] => none
  | a :: rest =>
    if a.is_full then
      (allocFromList rest).map (fun x => (x.1, a :: x.2))
    else
      a.allocate.map (fun x => (x.1, x.2 :: rest))

/-- `ArenaSet::allocate`: scan for a non-full arena; if all are full,
create a fresh arena, allocate from it, and push it onto the set. -/
def ArenaSet.allocate {T : Type} [Inhabited T] (s : ArenaSet T) :
    Option (ArenaPtr × ArenaSet T) :=
  match ArenaSet.allocFromList s.arenas with
  | some x => some (x.1, { s with arenas := x.2 })
  | none =>
    (Arena.new T s.nextId s.capacity).allocate.map
      (fun x => (x.1, { s with arenas := s.arenas ++ [x.2], nextId := s.nextId + 1 }))

/-- Follow an `ArenaPtr`'s arena component: the arena of the set with
that address. -/
def ArenaSet.findArena {T : Type} (s : ArenaSet T) (aid : Nat) : Option (Arena T) :=
  s.arenas.find? (fun a => a.id == aid)

/-- Dereference a pointer into this arena set (`ArenaPtr::deref`). -/
def ArenaSet.derefAt {T : Type} (s : ArenaSet T) (p : ArenaPtr) : Option T :=
  match s.findArena p.arenaId with
  | some a => a.pool[p.index]?
  | none => none

/-- Mark the slot a pointer refers to (`ArenaPtr::mark`, lifted to the
set holding the arena). -/
def ArenaSet.markAt {T : Type} (s : ArenaSet T) (p : ArenaPtr) : ArenaSet T :=
  { s with arenas := s.arenas.map (fun a => if a.id == p.arenaId then a.markIdx p.index else a) }

/-- Read the mark bit a pointer refers to (`ArenaPtr::is_marked`). -/
def ArenaSet.isMarkedAt {T : Type} (s : ArenaSet T) (p : ArenaPtr) : Bool :=
  match s.findArena p.arenaId with
  | some a => a.isMarkedIdx p.index
  | none => false

/-- A pointer is valid in a set when its arena exists and its index is
within the pool. -/
def ArenaSet.validAt {T : Type} (s : ArenaSet T) (p : ArenaPtr) : Bool :=
  match s.findArena p.arenaId with
  | some a => decide (p.index < a.pool.length)
  | none => false

/-- Overwrite a pool slot (`ArenaPtr::deref_mut` followed by a store). -/
def ArenaSet.writeAt {T : Type} (s : ArenaSet T) (p : ArenaPtr) (v : T) : ArenaSet T :=
  { s with arenas := s.arenas.map (fun a => if a.id == p.arenaId then { a with pool := a.pool.set p.index v } else a) }

/-- The number of unmarked slots of the set (a bound for the mark loop). -/
def ArenaSet.unmarkedCount {T : Type} (s : ArenaSet T) : Nat :=
  (s.arenas.map (fun a => countFalse a.marked)).sum

/-! ## The heap -/

/-- `Heap`: the scheme heap and GC runtime. -/
structure Heap : Type where
  environment : Environment
  cons_cells : ArenaSet Cons
  strings : ArenaSet String
  activations : ArenaSet Activation
  procedures : ArenaSet Procedure
  roots : List (GcThing × Nat)
  symbol_table : List (String × ArenaPtr)
  global_activation : ArenaPtr
  allocations : Nat
  allocations_threshold : Nat
  locations : List (ArenaPtr × Location)

/-- The loop body of `Heap::add_root`: increment the count of the first
entry for this thing, or push a fresh `(root, 1)` entry at the end. -/
def addRootList (root : GcThing) : List (GcThing × Nat) → List (GcThing × Nat)
  | [] => [(root, 1)]
  | (r, c) :: rest =>
    if r = root then (r, c + 1) :: rest else (r, c) :: addRootList root rest

/-- `Heap::add_root`. -/
def Heap.add_root (h : Heap) (root : GcThing) : Heap :=
  { h with roots := addRootList root h.roots }

/-- The fold inside `Heap::drop_root`: rebuild the roots list, dropping
an entry with count 1 for this thing and decrementing a larger count. -/
def dropRootList (r : GcThing) (roots : List (GcThing × Nat)) : List (GcThing × Nat) :=
  roots.foldl
    (fun v pair =>
      if pair.1 = r then
        (if pair.2 = 1 then v else v ++ [(pair.1, pair.2 - 1)])
      else v ++ [(pair.1, pair.2)])
    []

/-- `Heap::drop_root`, applied to a rooted handle whose current referent
coerces to the given `GcThing` (a referent with no GC thing leaves the
heap untouched and is not modelled). -/
def Heap.drop_root (h : Heap) (t : GcThing) : Heap :=
  { h with roots := dropRootList t h.roots }

/-- `Heap::get_roots`: every interned symbol's string, the global
activation, every root-table entry, and every located pair. -/
def Heap.get_roots (h : Heap) : List GcThing :=
  (h.symbol_table.map (fun kv => GcThing.String kv.2))
    ++ [GcThing.Activation h.global_activation]
    ++ h.roots.map (fun pair => pair.1)
    ++ h.locations.map (fun kv => GcThing.Cons kv.1)

/-- Dereference a cons pointer. -/
def Heap.derefCons (h : Heap) (p : ArenaPtr) : Option Cons :=
  h.cons_cells.derefAt p

/-- Dereference a string pointer. -/
def Heap.derefString (h : Heap) (p : ArenaPtr) : Option String :=
  h.strings.derefAt p

/-- Dereference an activation pointer. -/
def Heap.derefActivation (h : Heap) (p : ArenaPtr) : Option Activation :=
  h.activations.derefAt p

/-- Dereference a procedure pointer. -/
def Heap.derefProcedure (h : Heap) (p : ArenaPtr) : Option Procedure :=
  h.procedures.derefAt p

/-- A heap object of any of the four GC-managed kinds. -/
inductive GcObj : Type where
  | Cons (c : Cons)
  | String (s : String)
  | Activation (a : Activation)
  | Procedure (p : Procedure)
deriving DecidableEq, Repr

/-- Dereference a `GcThing` to the object it refers to. -/
def Heap.derefThing (h : Heap) : GcThing → Option GcObj
  | .Cons p => (h.derefCons p).map GcObj.Cons
  | .String p => (h.derefString p).map GcObj.String
  | .Activation p => (h.derefActivation p).map GcObj.Activation
  | .Procedure p => (h.derefProcedure p).map GcObj.Procedure

/-- `GcThing::mark`: dispatch `ArenaPtr::mark` on the tag. -/
def GcThing.mark (t : GcThing) (h : Heap) : Heap :=
  match t with
  | .Cons p => { h with cons_cells := h.cons_cells.markAt p }
  | .String p => { h with strings := h.strings.markAt p }
  | .Activation p => { h with activations := h.activations.markAt p }
  | .Procedure p => { h with procedures := h.procedures.markAt p }

/-- `GcThing::is_marked`: dispatch `ArenaPtr::is_marked` on the tag. -/
def GcThing.is_marked (t : GcThing) (h : Heap) : Bool :=
  match t with
  | .Cons p => h.cons_cells.isMarkedAt p
  | .String p => h.strings.isMarkedAt p
  | .Activation p => h.activations.isMarkedAt p
  | .Procedure p => h.procedures.isMarkedAt p

/-- `GcThing` validity: the pointer refers to an existing slot of the
arena set of its kind. -/
def GcThing.valid (t : GcThing) (h : Heap) : Bool :=
  match t with
  | .Cons p => h.cons_cells.validAt p
  | .String p => h.strings.validAt p
  | .Activation p => h.activations.validAt p
  | .Procedure p => h.procedures.validAt p

/-- `Trace for GcThing`: dereference and yield the referent's outgoing
references; strings hold none.  An invalid pointer (undefined behavior in
the source) traces to nothing. -/
def GcThing.trace (t : GcThing) (h : Heap) : List GcThing :=
  match t with
  | .Cons p => ((h.derefCons p).map Cons.trace).getD []
  | .String _ => []
  | .Activation p => ((h.derefActivation p).map Activation.trace).getD []
  | .Procedure p => ((h.derefProcedure p).map Procedure.trace).getD []

/-- Total number of unmarked slots of the heap. -/
def Heap.unmarkedCount (h : Heap) : Nat :=
  h.cons_cells.unmarkedCount + h.strings.unmarkedCount
    + h.activations.unmarkedCount + h.procedures.unmarkedCount

/-- One pass of the mark loop's inner `for`: pop each pending thing; if
it is unmarked, mark it and queue its traced referents. -/
def Heap.markBatch (h : Heap) : List GcThing → Heap × List GcThing
  | [] => (h, [])
  | x :: rest =>
    if x.is_marked h then h.markBatch rest
    else
      let h2 := x.mark h
      let r := h2.markBatch rest
      (r.1, x.trace h2 ++ r.2)

/-- The `while !pending_trace.is_empty()` loop of `Heap::collect_garbage`.
The source iterates until the worklist is empty; the loop terminates
because every round either marks a previously unmarked object or empties
the worklist.  The embedding runs it on fuel, which `collect_garbage`
supplies as (one more than) the number of unmarked slots — shown
sufficient in the mark-phase lemmas below. -/
def Heap.markLoop : Nat → Heap → List GcThing → Heap
  | 0, h, _ => h
  | fuel + 1, h, pending =>
    if pending.isEmpty then h
    else
      let r := h.markBatch pending
      Heap.markLoop fuel r.1 r.2

/-- `Heap::reset_gc_pressure`: zero the allocation counter and recompute
the threshold as Σ over the four arena sets of
`(capacity / 2) * arena_count`. -/
def Heap.reset_gc_pressure (h : Heap) : Heap :=
  { h with
    allocations := 0
    allocations_threshold :=
      ((h.cons_cells.capacity / 2) * h.cons_cells.arenas.length)
        + ((h.strings.capacity / 2) * h.strings.arenas.length)
        + ((h.activations.capacity / 2) * h.activations.arenas.length)
        + ((h.procedures.capacity / 2) * h.procedures.arenas.length) }

/-- `Heap::collect_garbage`: reset the pressure, trace and mark from the
roots, then sweep each arena set. -/
def Heap.collect_garbage (h : Heap) : Heap :=
  let h1 := h.reset_gc_pressure
  let h2 := Heap.markLoop (h1.unmarkedCount + 2) h1 h1.get_roots
  let h3 := { h2 with strings := h2.strings.sweep }
  let h4 := { h3 with activations := h3.activations.sweep }
  let h5 := { h4 with cons_cells := h4.cons_cells.sweep }
  { h5 with procedures := h5.procedures.sweep }

/-- `Heap::is_too_much_pressure`. -/
def Heap.is_too_much_pressure (h : Heap) : Bool :=
  h.allocations > h.allocations_threshold

/-- `Heap::increase_gc_pressure`: bump the allocation counter and collect
if the pressure got too high. -/
def Heap.increase_gc_pressure (h : Heap) : Heap :=
  let h1 := { h with allocations := h.allocations + 1 }
  if h1.is_too_much_pressure then h1.collect_garbage else h1

/-- `Heap::on_allocation`. -/
def Heap.on_allocation (h : Heap) : Heap :=
  h.increase_gc_pressure

/-- `Heap::allocate_cons`: apply pressure (possibly collecting), allocate
from the cons arena set, and root the result (`Rooted::new`).  `none` is
the arena-exhaustion panic. -/
def Heap.allocate_cons (h : Heap) : Option (ArenaPtr × Heap) :=
  let h1 := h.on_allocation
  match h1.cons_cells.allocate with
  | none => none
  | some (p, s2) => some (p, ({ h1 with cons_cells := s2 }).add_root (GcThing.Cons p))

/-- `Heap::allocate_string`. -/
def Heap.allocate_string (h : Heap) : Option (ArenaPtr × Heap) :=
  let h1 := h.on_allocation
  match h1.strings.allocate with
  | none => none
  | some (p, s2) => some (p, ({ h1 with strings := s2 }).add_root (GcThing.String p))

/-- `Heap::allocate_activation`. -/
def Heap.allocate_activation (h : Heap) : Option (ArenaPtr × Heap) :=
  let h1 := h.on_allocation
  match h1.activations.allocate with
  | none => none
  | some (p, s2) => some (p, ({ h1 with activations := s2 }).add_root (GcThing.Activation p))

/-- `Heap::allocate_procedure`. -/
def Heap.allocate_procedure (h : Heap) : Option (ArenaPtr × Heap) :=
  let h1 := h.on_allocation
  match h1.procedures.allocate with
  | none => none
  | some (p, s2) => some (p, ({ h1 with procedures := s2 }).add_root (GcThing.Procedure p))

/-- `Heap::with_extended_env`: extend the environment with a new block
containing the given names, run the block (which receives the heap and
returns its result together with the possibly-mutated heap — a failing
block returns its error as a value, e.g. at `T = Except ε α`), then pop
the block's frame.  `none` is the pop-of-global assertion failure. -/
def Heap.with_extended_env {T : Type} (h : Heap) (names : List String)
    (block : Heap → T × Heap) : Option (T × Heap) :=
  let h1 := { h with environment := h.environment.extend names }
  let r := block h1
  match r.2.environment.pop with
  | none => none
  | some env2 => some (r.1, { r.2 with environment := env2 })

/-- `HashMap::insert` with arbitrary keys: replace the value of an
existing entry, else append. -/
def insertAssoc {α β : Type} [DecidableEq α] (k : α) (v : β)
    (m : List (α × β)) : List (α × β) :=
  if m.any (fun p => decide (p.1 = k)) then
    m.map (fun p => if p.1 = k then (p.1, v) else p)
  else m ++ [(k, v)]

/-- `Heap::enlocate`: register the pair as originating from the given
location. -/
def Heap.enlocate (h : Heap) (loc : Location) (cons : ArenaPtr) : Heap :=
  { h with locations := insertAssoc cons loc h.locations }

/-- Overwrite a heap string in place (`clear` + `push_str`). -/
def Heap.writeString (h : Heap) (p : ArenaPtr) (s : String) : Heap :=
  { h with strings := h.strings.writeAt p s }

/-- `Heap::get_or_create_symbol`: on a hit return a symbol for the
interned string (rooting it, as `Rooted::new` does); on a miss allocate a
string, fill it with the name, intern it, and return it as a symbol. -/
def Heap.get_or_create_symbol (h : Heap) (str : String) : Option (HeapValue × Heap) :=
  match (h.symbol_table.find? (fun p => p.1 == str)).map (fun p => p.2) with
  | some sym_ptr => some (HeapValue.Symbol sym_ptr, h.add_root (GcThing.String sym_ptr))
  | none =>
    match h.allocate_string with
    | none => none
    | some (p, h1) =>
      let h2 := h1.writeString p str
      some (HeapValue.Symbol p, { h2 with symbol_table := h2.symbol_table ++ [(str, p)] })

/-! ## Well-formedness and reachability -/

/-- Everything about an arena except its mark bits (the bits only keep
their length). -/
def Arena.shape {T : Type} (a : Arena T) : Nat × List T × List Nat × Nat :=
  (a.id, a.pool, a.free, a.marked.length)

/-- Everything about an arena set except its arenas' mark bits. -/
def ArenaSet.shape {T : Type} (s : ArenaSet T) :
    Nat × List (Nat × List T × List Nat × Nat) × Nat :=
  (s.capacity, s.arenas.map Arena.shape, s.nextId)

/-- `h2` agrees with `h` on everything except (possibly) mark bits — the
relation preserved by the mark phase of a collection. -/
def Heap.MarksOnly (h h2 : Heap) : Prop :=
  h2.cons_cells.shape = h.cons_cells.shape ∧
  h2.strings.shape = h.strings.shape ∧
  h2.activations.shape = h.activations.shape ∧
  h2.procedures.shape = h.procedures.shape ∧
  h2.roots = h.roots ∧ h2.symbol_table = h.symbol_table ∧
  h2.global_activation = h.global_activation ∧ h2.locations = h.locations ∧
  h2.environment = h.environment ∧
  h2.allocations = h.allocations ∧
  h2.allocations_threshold = h.allocations_threshold

/-- Structural well-formedness of an arena: the mark bitset covers the
pool (`marked` should always have length == capacity). -/
def Arena.wf {T : Type} (a : Arena T) : Prop :=
  a.marked.length = a.pool.length

/-- Structural well-formedness of an arena set: distinct arena addresses
and well-formed arenas. -/
def ArenaSet.wf {T : Type} (s : ArenaSet T) : Prop :=
  (s.arenas.map Arena.id).Nodup ∧ ∀ a ∈ s.arenas, a.wf

/-- Structural well-formedness of the heap. -/
def Heap.wfStruct (h : Heap) : Prop :=
  h.cons_cells.wf ∧ h.strings.wf ∧ h.activations.wf ∧ h.procedures.wf

/-- All slot pointers of an arena set. -/
def ArenaSet.allPtrs {T : Type} (s : ArenaSet T) : List ArenaPtr :=
  (s.arenas.map (fun a => (List.range a.pool.length).map (fun i => ArenaPtr.mk a.id i))).flatten

/-- Every `GcThing` whose pointer lies inside the heap's arenas. -/
def Heap.allThings (h : Heap) : List GcThing :=
  h.cons_cells.allPtrs.map GcThing.Cons
    ++ h.strings.allPtrs.map GcThing.String
    ++ h.activations.allPtrs.map GcThing.Activation
    ++ h.procedures.allPtrs.map GcThing.Procedure

/-- Pointer-closure well-formedness: all roots are valid, and every
object in the heap only refers to valid objects. -/
def Heap.wfClosed (h : Heap) : Prop :=
  (∀ x ∈ h.get_roots, x.valid h = true) ∧
  (∀ x ∈ h.allThings, ∀ y ∈ x.trace h, y.valid h = true)

/-- Outside a collection every mark bit is clear (§3: "outside sweep,
`marked` is all-zero"). -/
def ArenaSet.allUnmarked {T : Type} (s : ArenaSet T) : Prop :=
  ∀ a ∈ s.arenas, ∀ b ∈ a.marked, b = false

/-- All-clear mark bits, heap-wide. -/
def Heap.allUnmarked (h : Heap) : Prop :=
  h.cons_cells.allUnmarked ∧ h.strings.allUnmarked
    ∧ h.activations.allUnmarked ∧ h.procedures.allUnmarked

/-- Transitive reachability from the enumerated roots via the `Trace`
protocol. -/
inductive Heap.Reachable (h : Heap) : GcThing → Prop where
  | root {x : GcThing} : x ∈ h.get_roots → h.Reachable x
  | step {x y : GcThing} : h.Reachable x → y ∈ x.trace h → h.Reachable y

instance (h : Heap) : Decidable h.wfStruct := by
  unfold Heap.wfStruct ArenaSet.wf Arena.wf
  infer_instance

instance (h : Heap) : Decidable h.wfClosed := by
  unfold Heap.wfClosed
  infer_instance

instance (h : Heap) : Decidable h.allUnmarked := by
  unfold Heap.allUnmarked ArenaSet.allUnmarked
  infer_instance

/-! ## The heap's mutating operations

Used to state lifetime properties ("no operation removes a location
registration"): one constructor per public state-changing method of
`Heap` (and of the environment embedded in it).  `none` models a panic
of the operation. -/

inductive HeapOp : Type where
  | allocCons
  | allocString
  | allocActivation
  | allocProcedure
  | collect
  | pressure
  | addRootOp (t : GcThing)
  | dropRootOp (t : GcThing)
  | globalActivationOp
  | enlocateOp (loc : Location) (p : ArenaPtr)
  | symbolOp (s : String)
  | extendEnvOp (names : List String)
  | popEnvOp
  | setCarOp (p : ArenaPtr) (v : HeapValue)
  | setCdrOp (p : ArenaPtr) (v : HeapValue)

/-- Apply one heap operation; the returned pointer or value (if any) is
discarded, keeping the state effect. -/
def Heap.applyOp (h : Heap) : HeapOp → Option Heap
  | .allocCons => (h.allocate_cons).map (fun r => r.2)
  | .allocString => (h.allocate_string).map (fun r => r.2)
  | .allocActivation => (h.allocate_activation).map (fun r => r.2)
  | .allocProcedure => (h.allocate_procedure).map (fun r => r.2)
  | .collect => some h.collect_garbage
  | .pressure => some h.increase_gc_pressure
  | .addRootOp t => some (h.add_root t)
  | .dropRootOp t => some (h.drop_root t)
  | .globalActivationOp => some (h.add_root (GcThing.Activation h.global_activation))
  | .enlocateOp loc p => some (h.enlocate loc p)
  | .symbolOp s => (h.get_or_create_symbol s).map (fun r => r.2)
  | .extendEnvOp names => some { h with environment := h.environment.extend names }
  | .popEnvOp => (h.environment.pop).map (fun e => { h with environment := e })
  | .setCarOp p v =>
    match h.derefCons p with
    | some c => some { h with cons_cells := h.cons_cells.writeAt p { c with car := v } }
    | none => none
  | .setCdrOp p v =>
    match h.derefCons p with
    | some c => some { h with cons_cells := h.cons_cells.writeAt p { c with cdr := v } }
    | none => none

/-- Apply a sequence of heap operations. -/
def Heap.applyOps (h : Heap) : List HeapOp → Option Heap
  | [] => some h
  | op :: rest =>
    match h.applyOp op with
    | none => none
    | some h2 => h2.applyOps rest

/-! ## Root-table operation sequences (for the root-table invariant) -/

/-- A root-table operation: an `add_root` or a `drop_root`. -/
inductive RootOp : Type where
  | add (t : GcThing)
  | drop (t : GcThing)

/-- Apply one root-table operation. -/
def applyRootOp (roots : List (GcThing × Nat)) : RootOp → List (GcThing × Nat)
  | .add t => addRootList t roots
  | .drop t => dropRootList t roots

/-- Run a sequence of root-table operations from the given table. -/
def runRootOps : List RootOp → List (GcThing × Nat) → List (GcThing × Nat)
  | [], roots => roots
  | op :: rest, roots => runRootOps rest (applyRootOp roots op)

/-- The reference count the table stores for a thing (summed, so that the
definition does not presuppose the no-duplicates invariant). -/
def rootCount (t : GcThing) (roots : List (GcThing × Nat)) : Nat :=
  ((roots.filter (fun p => decide (p.1 = t))).map (fun p => p.2)).sum

/-! ## Post-collection slot predicates -/

/-- The slot a `GcThing` refers to is on its arena's free list. -/
def Heap.slotFreed (h : Heap) : GcThing → Prop
  | .Cons p =>
    match h.cons_cells.findArena p.arenaId with
    | some a => p.index ∈ a.free
    | none => False
  | .String p =>
    match h.strings.findArena p.arenaId with
    | some a => p.index ∈ a.free
    | none => False
  | .Activation p =>
    match h.activations.findArena p.arenaId with
    | some a => p.index ∈ a.free
    | none => False
  | .Procedure p =>
    match h.procedures.findArena p.arenaId with
    | some a => p.index ∈ a.free
    | none => False

/-- The arena a `GcThing`'s pointer refers into no longer exists (it was
released to the OS after becoming entirely empty). -/
def Heap.arenaGone (h : Heap) : GcThing → Prop
  | .Cons p => h.cons_cells.findArena p.arenaId = none
  | .String p => h.strings.findArena p.arenaId = none
  | .Activation p => h.activations.findArena p.arenaId = none
  | .Procedure p => h.procedures.findArena p.arenaId = none

/-! ## Concrete heaps for witnesses and counterexamples -/

/-- A one-slot cons arena whose single cell is allocated (free list
empty) and holds the default pair. -/
def consArena0 : Arena Cons :=
  { id := 0, pool := [⟨.EmptyList, .EmptyList⟩], free := [], marked := [false] }

/-- A one-slot activation arena holding the global activation. -/
def actArena0 : Arena Activation :=
  { id := 0, pool := [⟨none, []⟩], free := [], marked := [false] }

/-- A small concrete heap: the global activation at `(0,0)` of the
activation arena, plus one allocated — but unrooted and unreachable —
cons cell at `(0,0)` of the cons arena. -/
def witnessHeap : Heap :=
  { environment := Environment.new
    cons_cells := { capacity := 1, arenas := [consArena0], nextId := 1 }
    strings := ArenaSet.new String 1
    activations := { capacity := 1, arenas := [actArena0], nextId := 1 }
    procedures := ArenaSet.new Procedure 1
    roots := []
    symbol_table := []
    global_activation := ⟨0, 0⟩
    allocations := 0
    allocations_threshold := 0
    locations := [] }

/-- A sample source location. -/
def loc0 : Location :=
  { file := "test.scm", line := 1, column := 1 }

/-- `witnessHeap` with its cons cell registered in the source-location
registry (pinning it as a root). -/
def locHeap : Heap :=
  { witnessHeap with locations := [(⟨0, 0⟩, loc0)] }

/-! # Theorems

First the supporting lemmas, then one theorem per claim (with its
witness or counterexample). -/

/-! ## `Value::len` (`src/value.rs`) -/

theorem len_ok_of_proper (v : Value) (n : Nat) (h : ProperList v n) :
    v.len = .ok n := by
  induction h with
  | nil => rfl
  | cons car cdr n hp ih => simp [Value.len, ih]

theorem len_error_of_improper (v : Value) (h : ImproperList v) :
    v.len = .error () := by
  induction h with
  | tail v hpair hempty =>
    cases v with
    | EmptyList => exact absurd rfl hempty
    | Pair car cdr => exact absurd rfl (hpair car cdr)
    | String s => rfl
    | Symbol s => rfl
    | Integer i => rfl
    | Boolean b => rfl
    | Character c => rfl
  | cons car cdr h ih => simp [Value.len, ih]

theorem improper_of_len_error (v : Value) (h : v.len = .error ()) :
    ImproperList v := by
  induction v with
  | EmptyList => simp [Value.len] at h
  | Pair car cdr ihcar ihcdr =>
    cases hcl : cdr.len with
    | ok n => simp [Value.len, hcl] at h
    | error e => exact ImproperList.cons _ _ (ihcdr (by cases e; exact hcl))
  | String s => exact ImproperList.tail _ (fun a b hh => by cases hh) (fun hh => by cases hh)
  | Symbol s => exact ImproperList.tail _ (fun a b hh => by cases hh) (fun hh => by cases hh)
  | Integer i => exact ImproperList.tail _ (fun a b hh => by cases hh) (fun hh => by cases hh)
  | Boolean b => exact ImproperList.tail _ (fun a b hh => by cases hh) (fun hh => by cases hh)
  | Character c => exact ImproperList.tail _ (fun a b hh => by cases hh) (fun hh => by cases hh)

/-- Claim C9: for every value heading a proper list of `n` cons cells,
`Value::len` returns `Ok n`; for every value heading an improper list it
returns an error. -/
theorem C9_len_proper_and_improper :
    (∀ (v : Value) (n : Nat), ProperList v n → v.len = .ok n) ∧
    (∀ v : Value, ImproperList v → v.len = .error ()) :=
  ⟨len_ok_of_proper, len_error_of_improper⟩

/-- Witness for C9 at concrete lists: `(1 2)` has length 2, and
`(1 . 2)` is improper, so `len` fails on it. -/
theorem C9_len_proper_and_improper_witness :
    Value.len (.Pair (.Integer 1) (.Pair (.Integer 2) .EmptyList)) = .ok 2 ∧
    Value.len (.Pair (.Integer 1) (.Integer 2)) = .error () :=
  ⟨C9_len_proper_and_improper.1 _ 2
      (ProperList.cons _ _ 1 (ProperList.cons _ _ 0 ProperList.nil)),
   C9_len_proper_and_improper.2 _
      (ImproperList.cons _ _
        (ImproperList.tail _ (fun a b hh => by cases hh) (fun hh => by cases hh)))⟩

/-- Claim C10: `Value::len` on the empty list — which is not a pair —
succeeds with `Ok 0`; `len` returns an error only on an improper list (a
non-pair, non-empty-list value, possibly in tail position). -/
theorem C10_len_empty_list :
    Value.len .EmptyList = .ok 0 ∧
    (∀ v : Value, v.len = .error () → ImproperList v) :=
  ⟨rfl, improper_of_len_error⟩

/-- Witness for C10: the only error cases are improper tails, e.g. the
bare integer `2`. -/
theorem C10_len_empty_list_witness :
    Value.len .EmptyList = .ok 0 ∧ ImproperList (.Integer 2) :=
  ⟨C10_len_empty_list.1, C10_len_empty_list.2 _ rfl⟩

/-! ## `Environment` (`src/environment.rs`) -/

theorem lookup_go_finds (name : String) :
    ∀ (frames : List Frame) (base i : Nat) (f : Frame) (j : Nat),
      frames[i]? = some f → f.get name = some j →
      (∀ k f2, k < i → frames[k]? = some f2 → f2.get name = none) →
      Environment.lookup.go name base frames = some (base + i, j) := by
  intro frames
  induction frames with
  | nil => intro base i f j hf; simp at hf
  | cons f0 rest ih =>
    intro base i f j hf hj hmiss
    cases i with
    | zero =>
      simp at hf
      subst hf
      simp [Environment.lookup.go, hj]
    | succ i =>
      have h0 : f0.get name = none := hmiss 0 f0 (Nat.succ_pos i) (by simp)
      simp at hf
      have := ih (base + 1) i f j hf hj
        (fun k f2 hk hf2 => hmiss (k + 1) f2 (Nat.succ_lt_succ hk) (by simpa using hf2))
      simpa [Environment.lookup.go, h0, Nat.add_assoc, Nat.add_comm 1 i] using this

theorem lookup_go_none (name : String) :
    ∀ (frames : List Frame) (base : Nat),
      (∀ f ∈ frames, f.get name = none) →
      Environment.lookup.go name base frames = none := by
  intro frames
  induction frames with
  | nil => intro base _; rfl
  | cons f0 rest ih =>
    intro base hmiss
    have h0 : f0.get name = none := hmiss f0 (List.mem_cons_self _ _)
    simp [Environment.lookup.go, h0]
    exact ih (base + 1) (fun f hf => hmiss f (List.mem_cons_of_mem _ hf))

/-- Claim C6: `Environment::lookup` scans frames from the top down and
returns `(i, j)` when the nearest frame binding the name is `i` frames
below the top with slot `j`, `None` when no frame binds it; in
particular, directly after `extend([a,b,c])` (distinct names), `a`, `b`,
`c` resolve to `(0,0)`, `(0,1)`, `(0,2)`. -/
theorem C6_lookup_scan :
    (∀ (e : Environment) (name : String) (i j : Nat) (f : Frame),
        e.bindings[i]? = some f → f.get name = some j →
        (∀ k f2, k < i → e.bindings[k]? = some f2 → f2.get name = none) →
        e.lookup name = some (i, j)) ∧
    (∀ (e : Environment) (name : String),
        (∀ f ∈ e.bindings, f.get name = none) → e.lookup name = none) ∧
    (∀ (e : Environment) (a b c : String), a ≠ b → a ≠ c → b ≠ c →
        (e.extend [a, b, c]).lookup a = some (0, 0) ∧
        (e.extend [a, b, c]).lookup b = some (0, 1) ∧
        (e.extend [a, b, c]).lookup c = some (0, 2)) := by
  refine ⟨?_, ?_, ?_⟩
  · intro e name i j f hf hj hmiss
    simpa using lookup_go_finds name e.bindings 0 i f j hf hj hmiss
  · intro e name hmiss
    exact lookup_go_none name e.bindings 0 hmiss
  · intro e a b c hab hac hbc
    have h1 : (a == b) = false := beq_eq_false_iff_ne.mpr hab
    have h2 : (a == c) = false := beq_eq_false_iff_ne.mpr hac
    have h3 : (b == c) = false := beq_eq_false_iff_ne.mpr hbc
    refine ⟨?_, ?_, ?_⟩ <;>
      simp [Environment.extend, Environment.define, Environment.lookup,
        Environment.lookup.go, Frame.get, Frame.insert, Frame.size,
        List.find?, h1, h2, h3]

/-- Witness for C6 at concrete names. -/
theorem C6_lookup_scan_witness :
    (Environment.new.extend ["a", "b", "c"]).lookup "a" = some (0, 0) ∧
    (Environment.new.extend ["a", "b", "c"]).lookup "b" = some (0, 1) ∧
    (Environment.new.extend ["a", "b", "c"]).lookup "c" = some (0, 2) :=
  C6_lookup_scan.2.2 Environment.new "a" "b" "c"
    (by decide) (by decide) (by decide)

theorem frame_get_cons (k : String) (v : Nat) (rest : Frame) (name : String) :
    Frame.get ((k, v) :: rest) name
      = if (k == name) = true then some v else Frame.get rest name := by
  cases hk : (k == name) <;> simp [Frame.get, List.find?_cons, hk]

theorem frame_get_insert (f : Frame) (name : String) (n : Nat)
    (h : f.get name = none) : (f.insert name n).get name = some n := by
  induction f with
  | nil => simp [Frame.get, Frame.insert, List.find?]
  | cons kv rest ih =>
    obtain ⟨k, v⟩ := kv
    rw [frame_get_cons] at h
    cases hk : (k == name) with
    | true => simp [hk] at h
    | false =>
      rw [hk] at h
      simp at h
      have hstep : Frame.insert ((k, v) :: rest) name n
          = (k, v) :: Frame.insert rest name n := rfl
      rw [hstep, frame_get_cons, hk]
      simpa using ih h

/-- Claim C7: `Environment::define` returns the existing `(0, slot)` and
leaves the environment unchanged when the top frame already binds the
name; otherwise it returns `(0, n)` with `n` the number of bindings of
the top frame before the call (binding the name to slot `n`);
consequently defining the same name twice yields the same coordinates. -/
theorem C7_define_idempotent :
    ∀ (e : Environment) (name : String) (f : Frame) (rest : List Frame),
      e.bindings = f :: rest →
      (∀ j, f.get name = some j → e.define name = ((0, j), e)) ∧
      (f.get name = none →
        e.define name = ((0, f.size), ⟨f.insert name f.size :: rest⟩)) ∧
      ((e.define name).2.define name).1 = (e.define name).1 := by
  intro e name f rest hb
  refine ⟨?_, ?_, ?_⟩
  · intro j hj
    cases e
    simp at hb
    subst hb
    simp [Environment.define, hj]
  · intro hnone
    cases e
    simp at hb
    subst hb
    simp [Environment.define, hnone]
  · cases e
    simp at hb
    subst hb
    cases hg : f.get name with
    | some j => simp [Environment.define, hg]
    | none => simp [Environment.define, hg, frame_get_insert f name f.size hg]

/-- Witness for C7 on a fresh environment and the name `x`. -/
theorem C7_define_idempotent_witness :
    Environment.new.define "x"
      = ((0, Frame.size ([] : Frame)),
         ⟨Frame.insert ([] : Frame) "x" (Frame.size ([] : Frame)) :: ([] : List Frame)⟩) ∧
    ((Environment.new.define "x").2.define "x").1 = (Environment.new.define "x").1 :=
  ⟨(C7_define_idempotent Environment.new "x" [] [] rfl).2.1 rfl,
   (C7_define_idempotent Environment.new "x" [] [] rfl).2.2⟩

/-! ## `Heap::with_extended_env` -/

theorem frame_get_append_left (f : Frame) (l : Frame) (m : String) (j : Nat)
    (h : f.get m = some j) : Frame.get (f ++ l) m = some j := by
  induction f with
  | nil => simp [Frame.get, List.find?] at h
  | cons kv rest ih =>
    obtain ⟨k, v⟩ := kv
    rw [frame_get_cons] at h
    rw [List.cons_append, frame_get_cons]
    cases hk : (k == m) with
    | true => rw [hk] at h; simpa using h
    | false => rw [hk] at h; simpa using ih h

theorem define_bindings_shape (f : Frame) (rest : List Frame) (name : String) :
    ∃ f2 : Frame, ((Environment.mk (f :: rest)).define name).2.bindings = f2 :: rest ∧
      (∀ m j, Frame.get f m = some j → (Frame.get f2 m).isSome = true) ∧
      (Frame.get f2 name).isSome = true := by
  cases hg : f.get name with
  | some j =>
    refine ⟨f, by simp [Environment.define, hg], ?_, by simp [hg]⟩
    intro m j2 hm
    simp [hm]
  | none =>
    refine ⟨f.insert name f.size, by simp [Environment.define, hg], ?_, ?_⟩
    · intro m j2 hm
      simp [frame_get_append_left f [(name, f.size)] m j2 hm, Frame.insert]
    · simp [frame_get_insert f name f.size hg]

theorem foldl_define_shape (names : List String) :
    ∀ (f : Frame) (rest : List Frame),
      ∃ f2 : Frame,
        (names.foldl (fun (env : Environment) n => (env.define n).2)
            (⟨f :: rest⟩ : Environment)).bindings = f2 :: rest ∧
        (∀ m j, Frame.get f m = some j → (Frame.get f2 m).isSome = true) ∧
        (∀ n ∈ names, (Frame.get f2 n).isSome = true) := by
  induction names with
  | nil => intro f rest; exact ⟨f, rfl, fun m j hm => by simp [hm], by simp⟩
  | cons n ns ih =>
    intro f rest
    obtain ⟨f1, hf1, hpres1, hn1⟩ := define_bindings_shape f rest n
    have hstep : ((Environment.mk (f :: rest)).define n).2 = ⟨f1 :: rest⟩ :=
      congrArg Environment.mk hf1
    obtain ⟨f2, hf2, hpres2, hns2⟩ := ih f1 rest
    refine ⟨f2, by simpa [List.foldl_cons, hstep] using hf2, ?_, ?_⟩
    · intro m j hm
      obtain ⟨j1, hj1⟩ := Option.isSome_iff_exists.mp (hpres1 m j hm)
      exact hpres2 m j1 hj1
    · intro m hm
      rcases List.mem_cons.mp hm with hm | hm
      · subst hm
        obtain ⟨j1, hj1⟩ := Option.isSome_iff_exists.mp hn1
        exact hpres2 m j1 hj1
      · exact hns2 m hm

theorem extend_shape (e : Environment) (names : List String) :
    ∃ f : Frame, (e.extend names).bindings = f :: e.bindings ∧
      ∀ n ∈ names, (Frame.get f n).isSome = true := by
  obtain ⟨f2, hb, _, hall⟩ := foldl_define_shape names [] e.bindings
  exact ⟨f2, hb, hall⟩

/-- Claim C2: `Heap::with_extended_env(names, block)` pushes a new
environment frame populated with the given names, invokes the block, and
pops that frame (also when the block fails, i.e. returns an error value),
so that afterwards the frame stack equals the one before the call.  The
block receives the heap; the hypothesis states that it leaves the frames
below its own balanced, which every block that uses the environment
through `define`/`with_extended_env` does. -/
theorem C2_with_extended_env {T : Type} (h : Heap) (names : List String)
    (block : Heap → T × Heap)
    (hne : h.environment.bindings ≠ [])
    (hblock : ∃ f : Frame,
      ((block { h with environment := h.environment.extend names }).2).environment.bindings
        = f :: h.environment.bindings) :
    (∃ f : Frame, (h.environment.extend names).bindings = f :: h.environment.bindings ∧
        ∀ n ∈ names, (Frame.get f n).isSome = true) ∧
    (∃ r : T × Heap,
      h.with_extended_env names block = some r ∧
      r.1 = (block { h with environment := h.environment.extend names }).1 ∧
      r.2.environment.bindings = h.environment.bindings) := by
  refine ⟨extend_shape h.environment names, ?_⟩
  obtain ⟨f, hf⟩ := hblock
  have hpop : ((block { h with environment := h.environment.extend names }).2).environment.pop
      = some ⟨h.environment.bindings⟩ := by
    unfold Environment.pop
    rw [hf]
    have hlen : 0 < h.environment.bindings.length := List.length_pos.mpr hne
    simp [Nat.lt_add_of_pos_left, hlen]
  refine ⟨((block { h with environment := h.environment.extend names }).1,
      { (block { h with environment := h.environment.extend names }).2 with
          environment := ⟨h.environment.bindings⟩ }), ?_, rfl, rfl⟩
  simp [Heap.with_extended_env, hpop]

/-- Witness for C2: a failing block (returning `Except.error`) on the
concrete heap; the frame is still popped and the stack is restored. -/
theorem C2_with_extended_env_witness :
    ∃ r : Except String Unit × Heap,
      witnessHeap.with_extended_env ["x"] (fun hh => (Except.error "fail", hh)) = some r ∧
      r.1 = Except.error "fail" ∧
      r.2.environment.bindings = witnessHeap.environment.bindings := by
  obtain ⟨-, r, hr, h1, h2⟩ :=
    C2_with_extended_env witnessHeap ["x"] (fun hh => (Except.error "fail", hh))
      (by decide) ⟨[("x", 0)], rfl⟩
  exact ⟨r, hr, by rw [h1], h2⟩

/-! ## `ArenaSet::allocate` never hits the `OutOfSlots` panic -/

theorem arena_allocate_isSome {T : Type} (a : Arena T) (h : a.is_full = false) :
    ∃ r, a.allocate = some r := by
  cases hl : a.free.getLast? with
  | none =>
    exfalso
    rw [List.getLast?_eq_none_iff] at hl
    simp [Arena.is_full, hl] at h
  | some x =>
    exact ⟨(⟨a.id, x⟩, { a with free := a.free.dropLast }),
      by simp [Arena.allocate, vecPop, hl]⟩

/-- Claim C5: for every arena set with per-arena capacity at least 1,
`ArenaSet::allocate` never fails with `OutOfSlots`: allocation is only
attempted on a non-full arena, and when all arenas are full a fresh one
serves the request. -/
theorem C5_arena_set_allocate {T : Type} [Inhabited T] (s : ArenaSet T)
    (hcap : 1 ≤ s.capacity) : ∃ r, s.allocate = some r := by
  unfold ArenaSet.allocate
  cases hfl : ArenaSet.allocFromList s.arenas with
  | some x => exact ⟨_, rfl⟩
  | none =>
    have hnf : (Arena.new T s.nextId s.capacity).is_full = false := by
      have : s.capacity ≠ 0 := Nat.one_le_iff_ne_zero.mp hcap
      simp [Arena.new, Arena.is_full, List.isEmpty_iff, List.range_eq_nil, this]
    obtain ⟨r, hr⟩ := arena_allocate_isSome _ hnf
    exact ⟨(r.1, { s with arenas := s.arenas ++ [r.2], nextId := s.nextId + 1 }),
      by simp [hr]⟩

/-- Witness for C5: a fresh one-slot cons arena set. -/
theorem C5_arena_set_allocate_witness :
    ∃ r, (ArenaSet.new Cons 1).allocate = some r :=
  C5_arena_set_allocate (ArenaSet.new Cons 1) (by decide)

/-! ## Mark-bit list lemmas -/

theorem countFalse_cons (b : Bool) (bs : List Bool) :
    countFalse (b :: bs) = (if b then 0 else 1) + countFalse bs := by
  cases b <;> simp [countFalse, List.filter, Nat.add_comm]

theorem getD_set_true (l : List Bool) (i j : Nat) :
    ((l.set i true).getD j false = true)
      ↔ ((i = j ∧ j < l.length) ∨ l.getD j false = true) := by
  induction l generalizing i j with
  | nil => simp
  | cons b bs ih =>
    cases i with
    | zero =>
      cases j with
      | zero => simp
      | succ j => simp
    | succ i =>
      cases j with
      | zero => simp
      | succ j => simpa [Nat.succ_lt_succ_iff] using ih i j

theorem getD_set_ne (l : List Bool) (i j : Nat) (hne : i ≠ j) (v : Bool) :
    (l.set i v).getD j false = l.getD j false := by
  induction l generalizing i j with
  | nil => simp
  | cons b bs ih =>
    cases i with
    | zero =>
      cases j with
      | zero => exact absurd rfl hne
      | succ j => simp
    | succ i =>
      cases j with
      | zero => simp
      | succ j => simpa using ih i j (fun he => hne (by rw [he]))

theorem getD_false_of_all_false (l : List Bool) (h : ∀ b ∈ l, b = false)
    (j : Nat) : l.getD j false = false := by
  induction l generalizing j with
  | nil => simp
  | cons b bs ih =>
    cases j with
    | zero => simpa using h b (List.mem_cons_self _ _)
    | succ j =>
      simpa using ih (fun c hc => h c (List.mem_cons_of_mem _ hc)) j

theorem countFalse_set_true_le (l : List Bool) (i : Nat) :
    countFalse (l.set i true) ≤ countFalse l := by
  induction l generalizing i with
  | nil => simp
  | cons b bs ih =>
    cases i with
    | zero =>
      rw [List.set_cons_zero, countFalse_cons, countFalse_cons]
      cases b <;> simp
    | succ i =>
      rw [List.set_cons_succ, countFalse_cons, countFalse_cons]
      exact Nat.add_le_add_left (ih i) _

theorem countFalse_set_true_lt (l : List Bool) (i : Nat) (hi : i < l.length)
    (hf : l.getD i false = false) :
    countFalse (l.set i true) < countFalse l := by
  induction l generalizing i with
  | nil => simp at hi
  | cons b bs ih =>
    cases i with
    | zero =>
      have hb : b = false := by simpa using hf
      subst hb
      rw [List.set_cons_zero, countFalse_cons, countFalse_cons]
      simp
    | succ i =>
      rw [List.set_cons_succ, countFalse_cons, countFalse_cons]
      exact Nat.add_lt_add_left (ih i (by simpa using hi) (by simpa using hf)) _

theorem find?_map_pres {α : Type} (f : α → α) (pr : α → Bool)
    (hf : ∀ a, pr (f a) = pr a) (l : List α) :
    (l.map f).find? pr = (l.find? pr).map f := by
  induction l with
  | nil => simp
  | cons a rest ih =>
    cases hp : pr a with
    | true =>
      rw [List.map_cons, List.find?_cons_of_pos _ ((hf a).trans hp),
        List.find?_cons_of_pos _ hp]
      rfl
    | false =>
      rw [List.map_cons, List.find?_cons_of_neg _ (by simp [hf, hp]),
        List.find?_cons_of_neg _ (by simp [hp]), ih]

theorem findArena_cons_pos {T : Type} (b : Arena T) (l : List (Arena T))
    (aid : Nat) (h : (b.id == aid) = true) :
    (b :: l).find? (fun a => a.id == aid) = some b :=
  List.find?_cons_of_pos l h

theorem findArena_cons_neg {T : Type} (b : Arena T) (l : List (Arena T))
    (aid : Nat) (h : (b.id == aid) = false) :
    (b :: l).find? (fun a => a.id == aid) = l.find? (fun a => a.id == aid) :=
  List.find?_cons_of_neg l (by simp [h])

theorem findArena_shape {T : Type} {l l2 : List (Arena T)}
    (hsh : l2.map Arena.shape = l.map Arena.shape) (aid : Nat) :
    (l2.find? (fun a => a.id == aid)).map Arena.shape
      = (l.find? (fun a => a.id == aid)).map Arena.shape := by
  induction l generalizing l2 with
  | nil =>
    cases l2 with
    | nil => rfl
    | cons b rest2 => simp at hsh
  | cons a rest ih =>
    cases l2 with
    | nil => simp at hsh
    | cons b rest2 =>
      simp only [List.map_cons, List.cons.injEq] at hsh
      obtain ⟨h1, h2⟩ := hsh
      have hid : b.id = a.id := congrArg (fun sh => sh.1) h1
      cases hp : (a.id == aid) with
      | true =>
        rw [findArena_cons_pos b rest2 aid (by rw [hid]; exact hp),
          findArena_cons_pos a rest aid hp]
        simpa using h1
      | false =>
        rw [findArena_cons_neg b rest2 aid (by rw [hid]; exact hp),
          findArena_cons_neg a rest aid hp, ih h2]

/-! ## The root table (`Heap::add_root` / `Heap::drop_root`) -/

/-- The element-wise effect of the `drop_root` fold. -/
def dropEntry (r : GcThing) (p : GcThing × Nat) : Option (GcThing × Nat) :=
  if p.1 = r then (if p.2 = 1 then none else some (p.1, p.2 - 1)) else some p

theorem dropRootList_foldl_general (r : GcThing) (roots : List (GcThing × Nat)) :
    ∀ acc : List (GcThing × Nat),
      roots.foldl
        (fun v pair =>
          if pair.1 = r then
            (if pair.2 = 1 then v else v ++ [(pair.1, pair.2 - 1)])
          else v ++ [(pair.1, pair.2)])
        acc = acc ++ roots.filterMap (dropEntry r) := by
  induction roots with
  | nil => intro acc; simp
  | cons p rest ih =>
    intro acc
    by_cases h1 : p.1 = r
    · by_cases h2 : p.2 = 1
      · simp [List.foldl_cons, h1, h2, ih, List.filterMap_cons, dropEntry]
      · simp [List.foldl_cons, h1, h2, ih, List.filterMap_cons, dropEntry]
    · simp [List.foldl_cons, h1, ih, List.filterMap_cons, dropEntry]

theorem dropRootList_eq_filterMap (r : GcThing) (roots : List (GcThing × Nat)) :
    dropRootList r roots = roots.filterMap (dropEntry r) := by
  simpa [dropRootList] using dropRootList_foldl_general r roots []

theorem dropRootList_keys_sublist (r : GcThing) (roots : List (GcThing × Nat)) :
    ((dropRootList r roots).map Prod.fst).Sublist (roots.map Prod.fst) := by
  rw [dropRootList_eq_filterMap]
  induction roots with
  | nil => simp
  | cons p rest ih =>
    rw [List.filterMap_cons]
    cases hd : dropEntry r p with
    | none => exact (ih.trans (List.sublist_cons_self _ _))
    | some q =>
      have hq : q.1 = p.1 := by
        unfold dropEntry at hd
        by_cases h1 : p.1 = r
        · by_cases h2 : p.2 = 1
          · simp [h1, h2] at hd
          · simp [h1, h2] at hd; simp [← hd, h1]
        · simp [h1] at hd; simp [← hd]
      simpa [hq] using List.Sublist.cons₂ p.1 ih

theorem addRootList_keys (t : GcThing) (roots : List (GcThing × Nat)) :
    (addRootList t roots).map Prod.fst
      = if t ∈ roots.map Prod.fst then roots.map Prod.fst
        else roots.map Prod.fst ++ [t] := by
  induction roots with
  | nil => simp [addRootList]
  | cons p rest ih =>
    obtain ⟨q, c⟩ := p
    by_cases h1 : q = t
    · simp [addRootList, h1]
    · by_cases h2 : t ∈ rest.map Prod.fst <;>
        simp [addRootList, h1, ih, h2, Ne.symm h1]

theorem addRootList_counts (t : GcThing) (roots : List (GcThing × Nat))
    (hpos : ∀ p ∈ roots, 1 ≤ p.2) :
    ∀ p ∈ addRootList t roots, 1 ≤ p.2 := by
  induction roots with
  | nil =>
    intro p hp
    simp [addRootList] at hp
    simp [hp]
  | cons q rest ih =>
    obtain ⟨qt, qc⟩ := q
    intro p hp
    by_cases h1 : qt = t
    · simp [addRootList, h1] at hp
      rcases hp with hp | hp
      · simp [hp]
      · exact hpos p (List.mem_cons_of_mem _ hp)
    · simp only [addRootList, if_neg h1] at hp
      rcases List.mem_cons.mp hp with hp | hp
      · subst hp; exact hpos _ (List.mem_cons_self _ _)
      · exact ih (fun p2 hp2 => hpos p2 (List.mem_cons_of_mem _ hp2)) p hp

theorem dropRootList_counts (r : GcThing) (roots : List (GcThing × Nat))
    (hpos : ∀ p ∈ roots, 1 ≤ p.2) :
    ∀ p ∈ dropRootList r roots, 1 ≤ p.2 := by
  rw [dropRootList_eq_filterMap]
  intro p hp
  obtain ⟨q, hq, hdq⟩ := List.mem_filterMap.mp hp
  unfold dropEntry at hdq
  by_cases h1 : q.1 = r
  · by_cases h2 : q.2 = 1
    · rw [if_pos h1, if_pos h2] at hdq
      cases hdq
    · rw [if_pos h1, if_neg h2] at hdq
      have hpq := Option.some.inj hdq
      have h3 := hpos q hq
      rw [← hpq]
      simp only []
      omega
  · rw [if_neg h1] at hdq
    have hpq := Option.some.inj hdq
    rw [← hpq]
    exact hpos q hq

theorem rootCount_cons (t : GcThing) (p : GcThing × Nat)
    (rest : List (GcThing × Nat)) :
    rootCount t (p :: rest) = (if p.1 = t then p.2 else 0) + rootCount t rest := by
  by_cases h : p.1 = t <;> simp [rootCount, List.filter_cons, h]

theorem rootCount_add_self (t : GcThing) (roots : List (GcThing × Nat)) :
    rootCount t (addRootList t roots) = rootCount t roots + 1 := by
  induction roots with
  | nil => simp [addRootList, rootCount]
  | cons p rest ih =>
    obtain ⟨q, c⟩ := p
    by_cases h1 : q = t
    · subst h1
      simp [addRootList, rootCount, List.filter_cons]
      omega
    · simp [addRootList, h1, rootCount, List.filter_cons] at ih ⊢
      by_cases h2 : q = t
      · exact absurd h2 h1
      · simpa [h2] using ih

theorem rootCount_add_ne (s t : GcThing) (hne : s ≠ t)
    (roots : List (GcThing × Nat)) :
    rootCount s (addRootList t roots) = rootCount s roots := by
  induction roots with
  | nil => simp [addRootList, rootCount, Ne.symm hne]
  | cons p rest ih =>
    obtain ⟨q, c⟩ := p
    by_cases h1 : q = t
    · subst h1
      simp [addRootList, rootCount, List.filter_cons, Ne.symm hne]
    · simp only [addRootList, if_neg h1]
      by_cases h2 : q = s <;>
        simpa [rootCount, List.filter_cons, h2] using ih

theorem rootCount_zero_of_not_mem (t : GcThing) (roots : List (GcThing × Nat))
    (h : t ∉ roots.map Prod.fst) : rootCount t roots = 0 := by
  induction roots with
  | nil => simp [rootCount]
  | cons p rest ih =>
    simp at h
    simp [rootCount, List.filter_cons, h.1, Ne.symm] at ih ⊢
    have : ¬(p.1 = t) := fun he => h.1 (he ▸ rfl)
    simpa [this] using ih (by simpa using h.2)

theorem dropEntry_hit_last (r : GcThing) (p : GcThing × Nat)
    (h1 : p.1 = r) (h2 : p.2 = 1) : dropEntry r p = none := by
  simp [dropEntry, h1, h2]

theorem dropEntry_hit (r : GcThing) (p : GcThing × Nat)
    (h1 : p.1 = r) (h2 : ¬p.2 = 1) : dropEntry r p = some (p.1, p.2 - 1) := by
  simp [dropEntry, h1, h2]

theorem dropEntry_miss (r : GcThing) (p : GcThing × Nat)
    (h1 : ¬p.1 = r) : dropEntry r p = some p := by
  simp [dropEntry, h1]

theorem dropRootList_zero_of_not_mem (t : GcThing)
    (rest : List (GcThing × Nat)) (hnmem : t ∉ rest.map Prod.fst) :
    rootCount t (rest.filterMap (dropEntry t)) = 0 := by
  refine rootCount_zero_of_not_mem t _ (fun hmem => hnmem ?_)
  have hs := dropRootList_keys_sublist t rest
  rw [dropRootList_eq_filterMap] at hs
  exact hs.mem hmem

theorem rootCount_drop_self (t : GcThing) (roots : List (GcThing × Nat))
    (hnd : (roots.map Prod.fst).Nodup) :
    rootCount t (dropRootList t roots) = rootCount t roots - 1 := by
  rw [dropRootList_eq_filterMap]
  induction roots with
  | nil => simp [rootCount]
  | cons p rest ih =>
    rw [List.map_cons, List.nodup_cons] at hnd
    have hrest := ih hnd.2
    rw [List.filterMap_cons]
    by_cases h1 : p.1 = t
    · have hnmem : t ∉ rest.map Prod.fst := h1 ▸ hnd.1
      have hz : rootCount t rest = 0 := rootCount_zero_of_not_mem t rest hnmem
      have hz2 : rootCount t (rest.filterMap (dropEntry t)) = 0 :=
        dropRootList_zero_of_not_mem t rest hnmem
      by_cases h2 : p.2 = 1
      · rw [dropEntry_hit_last t p h1 h2, hz2, rootCount_cons, if_pos h1, hz, h2]
      · rw [dropEntry_hit t p h1 h2, rootCount_cons, rootCount_cons, hz, hz2,
          if_pos h1]
        simp [h1]
    · rw [dropEntry_miss t p h1, rootCount_cons, rootCount_cons, hrest,
        if_neg h1]
      omega

theorem rootCount_drop_ne (s t : GcThing) (hne : s ≠ t)
    (roots : List (GcThing × Nat)) :
    rootCount s (dropRootList t roots) = rootCount s roots := by
  rw [dropRootList_eq_filterMap]
  induction roots with
  | nil => simp [rootCount]
  | cons p rest ih =>
    rw [List.filterMap_cons]
    by_cases h1 : p.1 = t
    · have hps : ¬(p.1 = s) := fun he => (Ne.symm hne) (h1 ▸ he)
      by_cases h2 : p.2 = 1
      · rw [dropEntry_hit_last t p h1 h2, ih, rootCount_cons, if_neg hps]
        omega
      · rw [dropEntry_hit t p h1 h2, rootCount_cons, rootCount_cons, ih]
        simp [hps]
    · rw [dropEntry_miss t p h1, rootCount_cons, rootCount_cons, ih]

theorem drop_removes_entry (t : GcThing) (roots : List (GcThing × Nat))
    (hnd : (roots.map Prod.fst).Nodup) (hpos : ∀ p ∈ roots, 1 ≤ p.2)
    (hle : rootCount t roots ≤ 1) :
    t ∉ (dropRootList t roots).map Prod.fst := by
  rw [dropRootList_eq_filterMap]
  induction roots with
  | nil => simp
  | cons p rest ih =>
    rw [List.map_cons, List.nodup_cons] at hnd
    rw [rootCount_cons] at hle
    rw [List.filterMap_cons]
    by_cases h1 : p.1 = t
    · have hnmem : t ∉ rest.map Prod.fst := h1 ▸ hnd.1
      have hc : p.2 = 1 := by
        have hz : rootCount t rest = 0 := rootCount_zero_of_not_mem t rest hnmem
        have hge : 1 ≤ p.2 := hpos p (List.mem_cons_self _ _)
        rw [if_pos h1, hz] at hle
        omega
      rw [dropEntry_hit_last t p h1 hc]
      intro hmem
      have hs := dropRootList_keys_sublist t rest
      rw [dropRootList_eq_filterMap] at hs
      exact hnmem (hs.mem hmem)
    · rw [dropEntry_miss t p h1]
      rw [List.map_cons, List.mem_cons]
      rintro (he | hmem)
      · exact h1 he.symm
      · refine ih hnd.2 (fun q hq => hpos q (List.mem_cons_of_mem _ hq)) ?_ hmem
        rw [if_neg h1] at hle
        omega

/-- The root-table invariant: distinct things, positive counts. -/
def RootInv (roots : List (GcThing × Nat)) : Prop :=
  (roots.map Prod.fst).Nodup ∧ ∀ p ∈ roots, 1 ≤ p.2

theorem addRootList_rootInv (t : GcThing) (roots : List (GcThing × Nat))
    (h : RootInv roots) : RootInv (addRootList t roots) := by
  obtain ⟨hnd, hpos⟩ := h
  refine ⟨?_, addRootList_counts t roots hpos⟩
  rw [addRootList_keys]
  by_cases hm : t ∈ roots.map Prod.fst
  · simpa [hm] using hnd
  · simp [hm]
    exact List.Nodup.append hnd (by simp) (by simpa [List.disjoint_singleton] using hm)

theorem dropRootList_rootInv (t : GcThing) (roots : List (GcThing × Nat))
    (h : RootInv roots) : RootInv (dropRootList t roots) :=
  ⟨(dropRootList_keys_sublist t roots).nodup h.1,
   dropRootList_counts t roots h.2⟩

theorem runRootOps_rootInv (ops : List RootOp) :
    ∀ roots, RootInv roots → RootInv (runRootOps ops roots) := by
  induction ops with
  | nil => intro roots h; exact h
  | cons op rest ih =>
    intro roots h
    cases op with
    | add t => exact ih _ (addRootList_rootInv t roots h)
    | drop t => exact ih _ (dropRootList_rootInv t roots h)

/-- Claim C4: any `add_root`/`drop_root` sequence from a fresh heap keeps
the root table free of duplicate things with all counts at least 1;
`add_root` increments the existing count (or inserts `(t, 1)`), and
`drop_root` decrements the count of the dropped referent, removing the
entry when it reaches 0; other entries are untouched. -/
theorem C4_root_table (ops : List RootOp) :
    RootInv (runRootOps ops []) ∧
    (∀ t, rootCount t (addRootList t (runRootOps ops []))
        = rootCount t (runRootOps ops []) + 1) ∧
    (∀ s t, s ≠ t → rootCount s (addRootList t (runRootOps ops []))
        = rootCount s (runRootOps ops [])) ∧
    (∀ t, rootCount t (dropRootList t (runRootOps ops []))
        = rootCount t (runRootOps ops []) - 1) ∧
    (∀ s t, s ≠ t → rootCount s (dropRootList t (runRootOps ops []))
        = rootCount s (runRootOps ops [])) ∧
    (∀ t, rootCount t (runRootOps ops []) ≤ 1 →
        t ∉ (dropRootList t (runRootOps ops [])).map Prod.fst) := by
  have hinv : RootInv (runRootOps ops []) :=
    runRootOps_rootInv ops [] ⟨by simp, by simp⟩
  refine ⟨hinv, fun t => rootCount_add_self t _, fun s t h => rootCount_add_ne s t h _,
    fun t => rootCount_drop_self t _ hinv.1, fun s t h => rootCount_drop_ne s t h _,
    fun t hle => drop_removes_entry t _ hinv.1 hinv.2 hle⟩

/-! ## Arena-set lemmas for the mark phase -/

theorem isMarkedAt_of_find {T : Type} (s : ArenaSet T) (p : ArenaPtr)
    (a : Arena T) (hA : s.findArena p.arenaId = some a) :
    s.isMarkedAt p = a.isMarkedIdx p.index := by
  unfold ArenaSet.isMarkedAt
  rw [hA]

theorem isMarkedAt_of_find_none {T : Type} (s : ArenaSet T) (p : ArenaPtr)
    (hA : s.findArena p.arenaId = none) : s.isMarkedAt p = false := by
  unfold ArenaSet.isMarkedAt
  rw [hA]

theorem validAt_of_find {T : Type} (s : ArenaSet T) (p : ArenaPtr)
    (a : Arena T) (hA : s.findArena p.arenaId = some a) :
    s.validAt p = decide (p.index < a.pool.length) := by
  unfold ArenaSet.validAt
  rw [hA]

theorem validAt_of_find_none {T : Type} (s : ArenaSet T) (p : ArenaPtr)
    (hA : s.findArena p.arenaId = none) : s.validAt p = false := by
  unfold ArenaSet.validAt
  rw [hA]

theorem derefAt_of_find {T : Type} (s : ArenaSet T) (p : ArenaPtr)
    (a : Arena T) (hA : s.findArena p.arenaId = some a) :
    s.derefAt p = a.pool[p.index]? := by
  unfold ArenaSet.derefAt
  rw [hA]

theorem derefAt_of_find_none {T : Type} (s : ArenaSet T) (p : ArenaPtr)
    (hA : s.findArena p.arenaId = none) : s.derefAt p = none := by
  unfold ArenaSet.derefAt
  rw [hA]

theorem findArena_congr {T : Type} {s s2 : ArenaSet T} (hsh : s2.shape = s.shape)
    (aid : Nat) :
    (s2.findArena aid).map Arena.shape = (s.findArena aid).map Arena.shape :=
  findArena_shape (congrArg (fun x => x.2.1) hsh) aid

theorem derefAt_congr {T : Type} {s s2 : ArenaSet T} (hsh : s2.shape = s.shape)
    (p : ArenaPtr) : s2.derefAt p = s.derefAt p := by
  have hf := findArena_congr hsh p.arenaId
  cases hA : s.findArena p.arenaId with
  | none =>
    rw [hA] at hf
    cases hB : s2.findArena p.arenaId with
    | none => rw [derefAt_of_find_none _ _ hA, derefAt_of_find_none _ _ hB]
    | some b => rw [hB] at hf; simp at hf
  | some a =>
    rw [hA] at hf
    cases hB : s2.findArena p.arenaId with
    | none => rw [hB] at hf; simp at hf
    | some b =>
      rw [hB] at hf
      simp at hf
      have hp : b.pool = a.pool := congrArg (fun sh => sh.2.1) hf
      rw [derefAt_of_find _ _ _ hA, derefAt_of_find _ _ _ hB, hp]

theorem validAt_congr {T : Type} {s s2 : ArenaSet T} (hsh : s2.shape = s.shape)
    (p : ArenaPtr) : s2.validAt p = s.validAt p := by
  have hf := findArena_congr hsh p.arenaId
  cases hA : s.findArena p.arenaId with
  | none =>
    rw [hA] at hf
    cases hB : s2.findArena p.arenaId with
    | none => rw [validAt_of_find_none _ _ hA, validAt_of_find_none _ _ hB]
    | some b => rw [hB] at hf; simp at hf
  | some a =>
    rw [hA] at hf
    cases hB : s2.findArena p.arenaId with
    | none => rw [hB] at hf; simp at hf
    | some b =>
      rw [hB] at hf
      simp at hf
      have hp : b.pool = a.pool := congrArg (fun sh => sh.2.1) hf
      rw [validAt_of_find _ _ _ hA, validAt_of_find _ _ _ hB, hp]

theorem wf_congr {T : Type} {s s2 : ArenaSet T} (hsh : s2.shape = s.shape)
    (h : s.wf) : s2.wf := by
  have h2 : s2.arenas.map Arena.shape = s.arenas.map Arena.shape :=
    congrArg (fun x => x.2.1) hsh
  constructor
  · have hids : s2.arenas.map Arena.id = s.arenas.map Arena.id := by
      have := congrArg (List.map (fun sh => sh.1)) h2
      simpa [List.map_map] using this
    rw [hids]
    exact h.1
  · intro a ha
    have hmem : Arena.shape a ∈ s.arenas.map Arena.shape := by
      rw [← h2]
      exact List.mem_map_of_mem _ ha
    obtain ⟨b, hb, hba⟩ := List.mem_map.mp hmem
    have hwb := h.2 b hb
    unfold Arena.wf at hwb ⊢
    have hp : b.pool = a.pool := congrArg (fun sh => sh.2.1) hba
    have hlm : b.marked.length = a.marked.length := congrArg (fun sh => sh.2.2.2) hba
    rw [← hp, ← hlm]
    exact hwb

theorem allPtrs_congr {T : Type} {s s2 : ArenaSet T} (hsh : s2.shape = s.shape) :
    s2.allPtrs = s.allPtrs := by
  have h2 : s2.arenas.map Arena.shape = s.arenas.map Arena.shape :=
    congrArg (fun x => x.2.1) hsh
  unfold ArenaSet.allPtrs
  have hrw : ∀ (l : List (Arena T)),
      l.map (fun a => (List.range a.pool.length).map (fun i => ArenaPtr.mk a.id i))
        = (l.map Arena.shape).map
            (fun sh => (List.range sh.2.1.length).map (fun i => ArenaPtr.mk sh.1 i)) := by
    intro l
    rw [List.map_map]
    rfl
  rw [hrw, hrw, h2]

theorem markAt_findArena {T : Type} (s : ArenaSet T) (q : ArenaPtr) (aid : Nat) :
    (s.markAt q).findArena aid
      = (s.findArena aid).map
          (fun a => if a.id == q.arenaId then a.markIdx q.index else a) := by
  unfold ArenaSet.findArena ArenaSet.markAt
  exact find?_map_pres _ _
    (fun a => by by_cases hc : (a.id == q.arenaId) = true <;> simp [hc, Arena.markIdx]) _

theorem markIdx_shape {T : Type} (a : Arena T) (i : Nat) :
    (a.markIdx i).shape = a.shape := by
  simp [Arena.markIdx, Arena.shape]

theorem markAt_shape {T : Type} (s : ArenaSet T) (p : ArenaPtr) :
    (s.markAt p).shape = s.shape := by
  unfold ArenaSet.markAt ArenaSet.shape
  simp only [List.map_map]
  refine congrArg (fun l => (s.capacity, l, s.nextId)) ?_
  refine List.map_congr_left (fun a ha => ?_)
  by_cases hc : (a.id == p.arenaId) = true <;> simp [hc, markIdx_shape, Function.comp]

theorem isMarkedAt_markAt_mono {T : Type} (s : ArenaSet T) (q p : ArenaPtr)
    (h : s.isMarkedAt p = true) : (s.markAt q).isMarkedAt p = true := by
  cases hA : s.findArena p.arenaId with
  | none => rw [isMarkedAt_of_find_none s p hA] at h; simp at h
  | some a =>
    have hm := markAt_findArena s q p.arenaId
    rw [hA, Option.map_some'] at hm
    rw [isMarkedAt_of_find s p a hA] at h
    rw [isMarkedAt_of_find _ _ _ hm]
    by_cases hc : (a.id == q.arenaId) = true
    · rw [if_pos hc]
      exact (getD_set_true a.marked q.index p.index).mpr (Or.inr h)
    · rw [if_neg hc]
      exact h

theorem isMarkedAt_markAt_ne {T : Type} (s : ArenaSet T) (q p : ArenaPtr)
    (hne : p ≠ q) : (s.markAt q).isMarkedAt p = s.isMarkedAt p := by
  cases hA : s.findArena p.arenaId with
  | none =>
    have hm := markAt_findArena s q p.arenaId
    rw [hA, Option.map_none'] at hm
    rw [isMarkedAt_of_find_none _ _ hm, isMarkedAt_of_find_none s p hA]
  | some a =>
    have hm := markAt_findArena s q p.arenaId
    rw [hA, Option.map_some'] at hm
    rw [isMarkedAt_of_find _ _ _ hm, isMarkedAt_of_find s p a hA]
    by_cases hc : (a.id == q.arenaId) = true
    · rw [if_pos hc]
      have hA' : s.arenas.find? (fun x => x.id == p.arenaId) = some a := hA
      have hpa := List.find?_some hA'
      have hidp : a.id = p.arenaId := by simpa using hpa
      have hqq : p.arenaId = q.arenaId := by
        rw [← hidp]
        simpa using hc
      have hidx : q.index ≠ p.index := by
        intro he
        obtain ⟨pa, pi⟩ := p
        obtain ⟨qa, qi⟩ := q
        simp only [] at hqq he
        exact hne (by rw [ArenaPtr.mk.injEq]; exact ⟨hqq, he.symm⟩)
      exact getD_set_ne a.marked q.index p.index hidx true
    · rw [if_neg hc]

theorem isMarkedAt_markAt_self {T : Type} (s : ArenaSet T) (p : ArenaPtr)
    (hv : s.validAt p = true) (hwf : s.wf) :
    (s.markAt p).isMarkedAt p = true := by
  cases hA : s.findArena p.arenaId with
  | none => rw [validAt_of_find_none s p hA] at hv; simp at hv
  | some a =>
    have hlt : p.index < a.pool.length := by
      rw [validAt_of_find s p a hA] at hv
      simpa using hv
    have hA' : s.arenas.find? (fun x => x.id == p.arenaId) = some a := hA
    have hamem := List.mem_of_find?_eq_some hA'
    have hml : a.marked.length = a.pool.length := hwf.2 a hamem
    have hown := List.find?_some hA'
    have hm := markAt_findArena s p p.arenaId
    rw [hA, Option.map_some'] at hm
    rw [isMarkedAt_of_find _ _ _ hm, if_pos hown]
    exact (getD_set_true a.marked p.index p.index).mpr
      (Or.inl ⟨rfl, by rw [hml]; exact hlt⟩)

theorem unmarkedCount_markAt_le {T : Type} (s : ArenaSet T) (q : ArenaPtr) :
    (s.markAt q).unmarkedCount ≤ s.unmarkedCount := by
  unfold ArenaSet.unmarkedCount ArenaSet.markAt
  simp only [List.map_map]
  refine List.sum_le_sum (fun a ha => ?_)
  by_cases hc : (a.id == q.arenaId) = true
  · simp only [Function.comp, hc, if_pos]
    exact countFalse_set_true_le a.marked q.index
  · simp [Function.comp, hc]

theorem unmarked_sum_lt {T : Type} (q : ArenaPtr) (a : Arena T)
    (hum : a.isMarkedIdx q.index = false) (hlen : q.index < a.marked.length) :
    ∀ l : List (Arena T), l.find? (fun x => x.id == q.arenaId) = some a →
      ((l.map (fun x => if x.id == q.arenaId then x.markIdx q.index else x)).map
          (fun x => countFalse x.marked)).sum
        < (l.map (fun x => countFalse x.marked)).sum := by
  intro l
  induction l with
  | nil => intro h; simp at h
  | cons b rest ih =>
    intro hA
    by_cases hc : (b.id == q.arenaId) = true
    · rw [findArena_cons_pos b rest q.arenaId hc] at hA
      have hba : b = a := Option.some.inj hA
      subst hba
      simp only [List.map_cons, List.sum_cons, if_pos hc]
      have h1 : countFalse (b.markIdx q.index).marked < countFalse b.marked :=
        countFalse_set_true_lt b.marked q.index hlen hum
      have h2 : ((rest.map (fun x => if x.id == q.arenaId then x.markIdx q.index else x)).map
            (fun x => countFalse x.marked)).sum
          ≤ (rest.map (fun x => countFalse x.marked)).sum := by
        simp only [List.map_map]
        refine List.sum_le_sum (fun c hcm => ?_)
        by_cases hcc : (c.id == q.arenaId) = true
        · simp only [Function.comp, hcc, if_pos]
          exact countFalse_set_true_le c.marked q.index
        · simp [Function.comp, hcc]
      omega
    · have hcf : (b.id == q.arenaId) = false := by simpa using hc
      rw [findArena_cons_neg b rest q.arenaId hcf] at hA
      simp only [List.map_cons, List.sum_cons, if_neg hc]
      exact Nat.add_lt_add_left (ih hA) _

theorem unmarkedCount_markAt_lt {T : Type} (s : ArenaSet T) (q : ArenaPtr)
    (hv : s.validAt q = true) (hum : s.isMarkedAt q = false) (hwf : s.wf) :
    (s.markAt q).unmarkedCount < s.unmarkedCount := by
  cases hA : s.findArena q.arenaId with
  | none => rw [validAt_of_find_none s q hA] at hv; simp at hv
  | some a =>
    have hlt : q.index < a.pool.length := by
      rw [validAt_of_find s q a hA] at hv
      simpa using hv
    have hml : a.marked.length = a.pool.length :=
      hwf.2 a (List.mem_of_find?_eq_some hA)
    have humx : a.isMarkedIdx q.index = false := by
      rw [isMarkedAt_of_find s q a hA] at hum
      exact hum
    unfold ArenaSet.unmarkedCount ArenaSet.markAt
    exact unmarked_sum_lt q a humx (by rw [hml]; exact hlt) s.arenas hA

/-- Witness for C4 on a concrete operation sequence: add a cons root
twice then drop it once; the entry survives with count 1, and a second
drop removes it. -/
theorem C4_root_table_witness :
    rootCount (GcThing.Cons ⟨0, 0⟩)
        (dropRootList (GcThing.Cons ⟨0, 0⟩)
          (runRootOps [RootOp.add (GcThing.Cons ⟨0, 0⟩),
                       RootOp.add (GcThing.Cons ⟨0, 0⟩),
                       RootOp.drop (GcThing.Cons ⟨0, 0⟩)] []))
      = rootCount (GcThing.Cons ⟨0, 0⟩)
          (runRootOps [RootOp.add (GcThing.Cons ⟨0, 0⟩),
                       RootOp.add (GcThing.Cons ⟨0, 0⟩),
                       RootOp.drop (GcThing.Cons ⟨0, 0⟩)] []) - 1 :=
  (C4_root_table _).2.2.2.1 _

/-! ## Heap-level mark-phase lemmas -/

theorem marksOnly_refl (h : Heap) : h.MarksOnly h :=
  ⟨rfl, rfl, rfl, rfl, rfl, rfl, rfl, rfl, rfl, rfl, rfl⟩

theorem marksOnly_trans {h h2 h3 : Heap} (ha : h.MarksOnly h2)
    (hb : h2.MarksOnly h3) : h.MarksOnly h3 := by
  obtain ⟨a1, a2, a3, a4, a5, a6, a7, a8, a9, a10, a11⟩ := ha
  obtain ⟨b1, b2, b3, b4, b5, b6, b7, b8, b9, b10, b11⟩ := hb
  exact ⟨b1.trans a1, b2.trans a2, b3.trans a3, b4.trans a4, b5.trans a5,
    b6.trans a6, b7.trans a7, b8.trans a8, b9.trans a9, b10.trans a10,
    b11.trans a11⟩

theorem marksOnly_get_roots {h h2 : Heap} (hm : h.MarksOnly h2) :
    h2.get_roots = h.get_roots := by
  obtain ⟨-, -, -, -, h5, h6, h7, h8, -, -, -⟩ := hm
  unfold Heap.get_roots
  rw [h5, h6, h7, h8]

theorem marksOnly_derefCons {h h2 : Heap} (hm : h.MarksOnly h2) (p : ArenaPtr) :
    h2.derefCons p = h.derefCons p :=
  derefAt_congr hm.1 p

theorem marksOnly_derefString {h h2 : Heap} (hm : h.MarksOnly h2) (p : ArenaPtr) :
    h2.derefString p = h.derefString p :=
  derefAt_congr hm.2.1 p

theorem marksOnly_derefActivation {h h2 : Heap} (hm : h.MarksOnly h2)
    (p : ArenaPtr) : h2.derefActivation p = h.derefActivation p :=
  derefAt_congr hm.2.2.1 p

theorem marksOnly_derefProcedure {h h2 : Heap} (hm : h.MarksOnly h2)
    (p : ArenaPtr) : h2.derefProcedure p = h.derefProcedure p :=
  derefAt_congr hm.2.2.2.1 p

theorem marksOnly_trace {h h2 : Heap} (hm : h.MarksOnly h2) (t : GcThing) :
    t.trace h2 = t.trace h := by
  cases t with
  | Cons p => simp only [GcThing.trace]; rw [marksOnly_derefCons hm p]
  | String p => rfl
  | Activation p => simp only [GcThing.trace]; rw [marksOnly_derefActivation hm p]
  | Procedure p => simp only [GcThing.trace]; rw [marksOnly_derefProcedure hm p]

theorem marksOnly_valid {h h2 : Heap} (hm : h.MarksOnly h2) (t : GcThing) :
    t.valid h2 = t.valid h := by
  cases t with
  | Cons p => exact validAt_congr hm.1 p
  | String p => exact validAt_congr hm.2.1 p
  | Activation p => exact validAt_congr hm.2.2.1 p
  | Procedure p => exact validAt_congr hm.2.2.2.1 p

theorem marksOnly_derefThing {h h2 : Heap} (hm : h.MarksOnly h2) (t : GcThing) :
    h2.derefThing t = h.derefThing t := by
  cases t with
  | Cons p => simp only [Heap.derefThing]; rw [marksOnly_derefCons hm p]
  | String p => simp only [Heap.derefThing]; rw [marksOnly_derefString hm p]
  | Activation p => simp only [Heap.derefThing]; rw [marksOnly_derefActivation hm p]
  | Procedure p => simp only [Heap.derefThing]; rw [marksOnly_derefProcedure hm p]

theorem marksOnly_reachable {h h2 : Heap} (hm : h.MarksOnly h2) (x : GcThing) :
    h2.Reachable x ↔ h.Reachable x := by
  constructor
  · intro hx
    induction hx with
    | root hr => exact Heap.Reachable.root (by rwa [marksOnly_get_roots hm] at hr)
    | step hr hy ih =>
      refine Heap.Reachable.step ih ?_
      rwa [marksOnly_trace hm _] at hy
  · intro hx
    induction hx with
    | root hr =>
      refine Heap.Reachable.root ?_
      rwa [marksOnly_get_roots hm]
    | step hr hy ih =>
      refine Heap.Reachable.step ih ?_
      rwa [marksOnly_trace hm _]

theorem marksOnly_wfStruct {h h2 : Heap} (hm : h.MarksOnly h2)
    (hw : h.wfStruct) : h2.wfStruct :=
  ⟨wf_congr hm.1 hw.1, wf_congr hm.2.1 hw.2.1, wf_congr hm.2.2.1 hw.2.2.1,
   wf_congr hm.2.2.2.1 hw.2.2.2⟩

theorem marksOnly_allThings {h h2 : Heap} (hm : h.MarksOnly h2) :
    h2.allThings = h.allThings := by
  unfold Heap.allThings
  rw [allPtrs_congr hm.1, allPtrs_congr hm.2.1, allPtrs_congr hm.2.2.1,
    allPtrs_congr hm.2.2.2.1]

theorem mark_marksOnly (t : GcThing) (h : Heap) : h.MarksOnly (t.mark h) := by
  cases t with
  | Cons p =>
    exact ⟨markAt_shape _ p, rfl, rfl, rfl, rfl, rfl, rfl, rfl, rfl, rfl, rfl⟩
  | String p =>
    exact ⟨rfl, markAt_shape _ p, rfl, rfl, rfl, rfl, rfl, rfl, rfl, rfl, rfl⟩
  | Activation p =>
    exact ⟨rfl, rfl, markAt_shape _ p, rfl, rfl, rfl, rfl, rfl, rfl, rfl, rfl⟩
  | Procedure p =>
    exact ⟨rfl, rfl, rfl, markAt_shape _ p, rfl, rfl, rfl, rfl, rfl, rfl, rfl⟩

theorem is_marked_mark_mono (x y : GcThing) (h : Heap)
    (hm : y.is_marked h = true) : y.is_marked (x.mark h) = true := by
  cases x <;> cases y <;>
    first
      | exact hm
      | exact isMarkedAt_markAt_mono _ _ _ hm

theorem is_marked_mark_ne (x y : GcThing) (h : Heap) (hne : y ≠ x) :
    y.is_marked (x.mark h) = y.is_marked h := by
  cases x <;> cases y <;>
    first
      | rfl
      | exact isMarkedAt_markAt_ne _ _ _ (fun he => hne (by rw [he]))

theorem is_marked_mark_self (x : GcThing) (h : Heap) (hv : x.valid h = true)
    (hwf : h.wfStruct) : x.is_marked (x.mark h) = true := by
  cases x with
  | Cons p => exact isMarkedAt_markAt_self _ _ hv hwf.1
  | String p => exact isMarkedAt_markAt_self _ _ hv hwf.2.1
  | Activation p => exact isMarkedAt_markAt_self _ _ hv hwf.2.2.1
  | Procedure p => exact isMarkedAt_markAt_self _ _ hv hwf.2.2.2

theorem unmarkedCount_mark_le (x : GcThing) (h : Heap) :
    (x.mark h).unmarkedCount ≤ h.unmarkedCount := by
  cases x with
  | Cons p =>
    have hx := unmarkedCount_markAt_le h.cons_cells p
    show (h.cons_cells.markAt p).unmarkedCount + h.strings.unmarkedCount
        + h.activations.unmarkedCount + h.procedures.unmarkedCount
      ≤ h.cons_cells.unmarkedCount + h.strings.unmarkedCount
        + h.activations.unmarkedCount + h.procedures.unmarkedCount
    omega
  | String p =>
    have hx := unmarkedCount_markAt_le h.strings p
    show h.cons_cells.unmarkedCount + (h.strings.markAt p).unmarkedCount
        + h.activations.unmarkedCount + h.procedures.unmarkedCount
      ≤ h.cons_cells.unmarkedCount + h.strings.unmarkedCount
        + h.activations.unmarkedCount + h.procedures.unmarkedCount
    omega
  | Activation p =>
    have hx := unmarkedCount_markAt_le h.activations p
    show h.cons_cells.unmarkedCount + h.strings.unmarkedCount
        + (h.activations.markAt p).unmarkedCount + h.procedures.unmarkedCount
      ≤ h.cons_cells.unmarkedCount + h.strings.unmarkedCount
        + h.activations.unmarkedCount + h.procedures.unmarkedCount
    omega
  | Procedure p =>
    have hx := unmarkedCount_markAt_le h.procedures p
    show h.cons_cells.unmarkedCount + h.strings.unmarkedCount
        + h.activations.unmarkedCount + (h.procedures.markAt p).unmarkedCount
      ≤ h.cons_cells.unmarkedCount + h.strings.unmarkedCount
        + h.activations.unmarkedCount + h.procedures.unmarkedCount
    omega

theorem unmarkedCount_mark_lt (x : GcThing) (h : Heap) (hv : x.valid h = true)
    (hum : x.is_marked h = false) (hwf : h.wfStruct) :
    (x.mark h).unmarkedCount < h.unmarkedCount := by
  cases x with
  | Cons p =>
    have hx := unmarkedCount_markAt_lt h.cons_cells p hv hum hwf.1
    show (h.cons_cells.markAt p).unmarkedCount + h.strings.unmarkedCount
        + h.activations.unmarkedCount + h.procedures.unmarkedCount
      < h.cons_cells.unmarkedCount + h.strings.unmarkedCount
        + h.activations.unmarkedCount + h.procedures.unmarkedCount
    omega
  | String p =>
    have hx := unmarkedCount_markAt_lt h.strings p hv hum hwf.2.1
    show h.cons_cells.unmarkedCount + (h.strings.markAt p).unmarkedCount
        + h.activations.unmarkedCount + h.procedures.unmarkedCount
      < h.cons_cells.unmarkedCount + h.strings.unmarkedCount
        + h.activations.unmarkedCount + h.procedures.unmarkedCount
    omega
  | Activation p =>
    have hx := unmarkedCount_markAt_lt h.activations p hv hum hwf.2.2.1
    show h.cons_cells.unmarkedCount + h.strings.unmarkedCount
        + (h.activations.markAt p).unmarkedCount + h.procedures.unmarkedCount
      < h.cons_cells.unmarkedCount + h.strings.unmarkedCount
        + h.activations.unmarkedCount + h.procedures.unmarkedCount
    omega
  | Procedure p =>
    have hx := unmarkedCount_markAt_lt h.procedures p hv hum hwf.2.2.2
    show h.cons_cells.unmarkedCount + h.strings.unmarkedCount
        + h.activations.unmarkedCount + (h.procedures.markAt p).unmarkedCount
      < h.cons_cells.unmarkedCount + h.strings.unmarkedCount
        + h.activations.unmarkedCount + h.procedures.unmarkedCount
    omega

/-! ## The mark loop's inner pass -/

theorem markBatch_cons_marked (h : Heap) (x : GcThing) (rest : List GcThing)
    (hm : x.is_marked h = true) :
    h.markBatch (x :: rest) = h.markBatch rest := by
  simp [Heap.markBatch, hm]

theorem markBatch_cons_unmarked (h : Heap) (x : GcThing) (rest : List GcThing)
    (hm : x.is_marked h = false) :
    h.markBatch (x :: rest)
      = (((x.mark h).markBatch rest).1,
         x.trace (x.mark h) ++ ((x.mark h).markBatch rest).2) := by
  simp [Heap.markBatch, hm]

theorem markBatch_marksOnly : ∀ (pending : List GcThing) (h : Heap),
    h.MarksOnly (h.markBatch pending).1 := by
  intro pending
  induction pending with
  | nil => intro h; exact marksOnly_refl h
  | cons x rest ih =>
    intro h
    by_cases hm : x.is_marked h = true
    · rw [markBatch_cons_marked h x rest hm]
      exact ih h
    · have hmf : x.is_marked h = false := by simpa using hm
      rw [markBatch_cons_unmarked h x rest hmf]
      exact marksOnly_trans (mark_marksOnly x h) (ih (x.mark h))

theorem markBatch_marks_mono (y : GcThing) : ∀ (pending : List GcThing) (h : Heap),
    y.is_marked h = true → y.is_marked (h.markBatch pending).1 = true := by
  intro pending
  induction pending with
  | nil => intro h hy; exact hy
  | cons x rest ih =>
    intro h hy
    by_cases hm : x.is_marked h = true
    · rw [markBatch_cons_marked h x rest hm]
      exact ih h hy
    · have hmf : x.is_marked h = false := by simpa using hm
      rw [markBatch_cons_unmarked h x rest hmf]
      exact ih (x.mark h) (is_marked_mark_mono x y h hy)

theorem markBatch_newly (y : GcThing) : ∀ (pending : List GcThing) (h : Heap),
    y ∈ (h.markBatch pending).2 → ∃ x ∈ pending, y ∈ x.trace h := by
  intro pending
  induction pending with
  | nil => intro h hy; simp [Heap.markBatch] at hy
  | cons x rest ih =>
    intro h hy
    by_cases hm : x.is_marked h = true
    · rw [markBatch_cons_marked h x rest hm] at hy
      obtain ⟨z, hz, hyz⟩ := ih h hy
      exact ⟨z, List.mem_cons_of_mem _ hz, hyz⟩
    · have hmf : x.is_marked h = false := by simpa using hm
      rw [markBatch_cons_unmarked h x rest hmf] at hy
      rcases List.mem_append.mp hy with hy | hy
      · rw [marksOnly_trace (mark_marksOnly x h) x] at hy
        exact ⟨x, List.mem_cons_self _ _, hy⟩
      · obtain ⟨z, hz, hyz⟩ := ih (x.mark h) hy
        rw [marksOnly_trace (mark_marksOnly x h) z] at hyz
        exact ⟨z, List.mem_cons_of_mem _ hz, hyz⟩

theorem markBatch_pending_marked (x : GcThing) :
    ∀ (pending : List GcThing) (h : Heap),
      x ∈ pending → x.valid h = true → h.wfStruct →
      x.is_marked (h.markBatch pending).1 = true := by
  intro pending
  induction pending with
  | nil => intro h hmem; simp at hmem
  | cons z rest ih =>
    intro h hmem hv hwf
    by_cases hz : z.is_marked h = true
    · rw [markBatch_cons_marked h z rest hz]
      rcases List.mem_cons.mp hmem with he | hr
      · subst he
        exact markBatch_marks_mono x rest h hz
      · exact ih h hr hv hwf
    · have hzf : z.is_marked h = false := by simpa using hz
      rw [markBatch_cons_unmarked h z rest hzf]
      show x.is_marked ((z.mark h).markBatch rest).1 = true
      rcases List.mem_cons.mp hmem with he | hr
      · subst he
        exact markBatch_marks_mono x rest (x.mark h)
          (is_marked_mark_self x h hv hwf)
      · have hv2 : x.valid (z.mark h) = true := by
          rw [marksOnly_valid (mark_marksOnly z h) x]
          exact hv
        exact ih (z.mark h) hr hv2 (marksOnly_wfStruct (mark_marksOnly z h) hwf)

theorem markBatch_marks_sound (y : GcThing) :
    ∀ (pending : List GcThing) (h : Heap),
      y.is_marked (h.markBatch pending).1 = true →
      y.is_marked h = true ∨ y ∈ pending := by
  intro pending
  induction pending with
  | nil => intro h hy; exact Or.inl hy
  | cons z rest ih =>
    intro h hy
    by_cases hz : z.is_marked h = true
    · rw [markBatch_cons_marked h z rest hz] at hy
      rcases ih h hy with hl | hr
      · exact Or.inl hl
      · exact Or.inr (List.mem_cons_of_mem _ hr)
    · have hzf : z.is_marked h = false := by simpa using hz
      rw [markBatch_cons_unmarked h z rest hzf] at hy
      have hy2 : y.is_marked ((z.mark h).markBatch rest).1 = true := hy
      rcases ih (z.mark h) hy2 with hl | hr
      · by_cases hyz : y = z
        · exact Or.inr (hyz ▸ List.mem_cons_self _ _)
        · rw [is_marked_mark_ne z y h hyz] at hl
          exact Or.inl hl
      · exact Or.inr (List.mem_cons_of_mem _ hr)

theorem markBatch_traces_sub (x : GcThing) :
    ∀ (pending : List GcThing) (h : Heap),
      x ∈ pending → x.is_marked h = false →
      ∀ y ∈ x.trace h, y ∈ (h.markBatch pending).2 := by
  intro pending
  induction pending with
  | nil => intro h hmem; simp at hmem
  | cons z rest ih =>
    intro h hmem humx y hy
    by_cases hz : z.is_marked h = true
    · rw [markBatch_cons_marked h z rest hz]
      have hxz : x ≠ z := by
        intro he
        subst he
        rw [hz] at humx
        cases humx
      have hxr : x ∈ rest := (List.mem_cons.mp hmem).resolve_left hxz
      exact ih h hxr humx y hy
    · have hzf : z.is_marked h = false := by simpa using hz
      rw [markBatch_cons_unmarked h z rest hzf]
      show y ∈ z.trace (z.mark h) ++ ((z.mark h).markBatch rest).2
      by_cases hxz : x = z
      · subst hxz
        refine List.mem_append_left _ ?_
        rw [marksOnly_trace (mark_marksOnly x h) x]
        exact hy
      · have hxr : x ∈ rest := (List.mem_cons.mp hmem).resolve_left hxz
        refine List.mem_append_right _ ?_
        have hum2 : x.is_marked (z.mark h) = false := by
          rw [is_marked_mark_ne z x h hxz]
          exact humx
        have hy2 : y ∈ x.trace (z.mark h) := by
          rw [marksOnly_trace (mark_marksOnly z h) x]
          exact hy
        exact ih (z.mark h) hxr hum2 y hy2

theorem markBatch_count_le : ∀ (pending : List GcThing) (h : Heap),
    ((h.markBatch pending).1).unmarkedCount ≤ h.unmarkedCount := by
  intro pending
  induction pending with
  | nil => intro h; exact Nat.le_refl _
  | cons x rest ih =>
    intro h
    by_cases hm : x.is_marked h = true
    · rw [markBatch_cons_marked h x rest hm]
      exact ih h
    · have hmf : x.is_marked h = false := by simpa using hm
      rw [markBatch_cons_unmarked h x rest hmf]
      exact Nat.le_trans (ih (x.mark h)) (unmarkedCount_mark_le x h)

theorem markBatch_count_lt (x : GcThing) :
    ∀ (pending : List GcThing) (h : Heap),
      x ∈ pending → x.is_marked h = false → x.valid h = true → h.wfStruct →
      ((h.markBatch pending).1).unmarkedCount < h.unmarkedCount := by
  intro pending
  induction pending with
  | nil => intro h hmem; simp at hmem
  | cons z rest ih =>
    intro h hmem humx hv hwf
    by_cases hz : z.is_marked h = true
    · rw [markBatch_cons_marked h z rest hz]
      have hxz : x ≠ z := by
        intro he
        subst he
        rw [hz] at humx
        cases humx
      exact ih h ((List.mem_cons.mp hmem).resolve_left hxz) humx hv hwf
    · have hzf : z.is_marked h = false := by simpa using hz
      rw [markBatch_cons_unmarked h z rest hzf]
      show ((z.mark h).markBatch rest).1.unmarkedCount < h.unmarkedCount
      by_cases hxz : x = z
      · subst hxz
        exact Nat.lt_of_le_of_lt (markBatch_count_le rest (x.mark h))
          (unmarkedCount_mark_lt x h hv humx hwf)
      · have hxr : x ∈ rest := (List.mem_cons.mp hmem).resolve_left hxz
        have hum2 : x.is_marked (z.mark h) = false := by
          rw [is_marked_mark_ne z x h hxz]
          exact humx
        have hv2 : x.valid (z.mark h) = true := by
          rw [marksOnly_valid (mark_marksOnly z h) x]
          exact hv
        exact Nat.lt_of_lt_of_le
          (ih (z.mark h) hxr hum2 hv2 (marksOnly_wfStruct (mark_marksOnly z h) hwf))
          (unmarkedCount_mark_le z h)

theorem markBatch_all_marked : ∀ (pending : List GcThing) (h : Heap),
    (∀ x ∈ pending, x.is_marked h = true) → h.markBatch pending = (h, []) := by
  intro pending
  induction pending with
  | nil => intro h _; rfl
  | cons x rest ih =>
    intro h hall
    rw [markBatch_cons_marked h x rest (hall x (List.mem_cons_self _ _))]
    exact ih h (fun z hz => hall z (List.mem_cons_of_mem _ hz))

/-! ## Reachable things are valid -/

theorem validAt_mem_allPtrs {T : Type} {s : ArenaSet T} {p : ArenaPtr}
    (hv : s.validAt p = true) : p ∈ s.allPtrs := by
  obtain ⟨pa, pi⟩ := p
  cases hA : s.findArena pa with
  | none => rw [validAt_of_find_none s _ hA] at hv; simp at hv
  | some a =>
    have hlt : pi < a.pool.length := by
      rw [validAt_of_find s _ a hA] at hv
      simpa using hv
    have hA' : s.arenas.find? (fun x => x.id == pa) = some a := hA
    have hamem := List.mem_of_find?_eq_some hA'
    have hpa := List.find?_some hA'
    have hid : a.id = pa := by simpa using hpa
    unfold ArenaSet.allPtrs
    rw [List.mem_flatten]
    refine ⟨(List.range a.pool.length).map (fun i => ArenaPtr.mk a.id i), ?_, ?_⟩
    · exact List.mem_map_of_mem _ hamem
    · rw [List.mem_map]
      exact ⟨pi, List.mem_range.mpr hlt, by rw [hid]⟩

theorem valid_mem_allThings {h : Heap} {x : GcThing} (hv : x.valid h = true) :
    x ∈ h.allThings := by
  cases x with
  | Cons p =>
    have hmem := validAt_mem_allPtrs (s := h.cons_cells) hv
    unfold Heap.allThings
    exact List.mem_append_left _ (List.mem_append_left _
      (List.mem_append_left _ (List.mem_map_of_mem _ hmem)))
  | String p =>
    have hmem := validAt_mem_allPtrs (s := h.strings) hv
    unfold Heap.allThings
    exact List.mem_append_left _ (List.mem_append_left _
      (List.mem_append_right _ (List.mem_map_of_mem _ hmem)))
  | Activation p =>
    have hmem := validAt_mem_allPtrs (s := h.activations) hv
    unfold Heap.allThings
    exact List.mem_append_left _
      (List.mem_append_right _ (List.mem_map_of_mem _ hmem))
  | Procedure p =>
    have hmem := validAt_mem_allPtrs (s := h.procedures) hv
    unfold Heap.allThings
    exact List.mem_append_right _ (List.mem_map_of_mem _ hmem)

theorem wfClosed_child_valid {h : Heap} (hwfC : h.wfClosed) {x y : GcThing}
    (hvx : x.valid h = true) (hy : y ∈ x.trace h) : y.valid h = true :=
  hwfC.2 x (valid_mem_allThings hvx) y hy

theorem reachable_valid {h : Heap} (hwfC : h.wfClosed) {x : GcThing}
    (hx : h.Reachable x) : x.valid h = true := by
  induction hx with
  | root hr => exact hwfC.1 _ hr
  | step hr hy ih => exact wfClosed_child_valid hwfC ih hy

/-! ## The mark loop: with enough fuel it marks exactly the reachable
things -/

theorem markLoop_spec (h0 : Heap) (hwfS : h0.wfStruct) (hwfC : h0.wfClosed) :
    ∀ (fuel : Nat) (h : Heap) (pending : List GcThing),
      h0.MarksOnly h →
      (∀ x ∈ pending, h0.Reachable x) →
      (∀ x : GcThing, x.is_marked h = true → h0.Reachable x) →
      (∀ x : GcThing, x.is_marked h = true →
        ∀ y ∈ x.trace h0, y.is_marked h = true ∨ y ∈ pending) →
      (∀ x ∈ h0.get_roots, x.is_marked h = true ∨ x ∈ pending) →
      h.unmarkedCount + 2 ≤ fuel →
      h0.MarksOnly (Heap.markLoop fuel h pending) ∧
      (∀ x : GcThing,
        x.is_marked (Heap.markLoop fuel h pending) = true ↔ h0.Reachable x) := by
  intro fuel
  induction fuel with
  | zero =>
    intro h pending _ _ _ _ _ hfuel
    omega
  | succ fuel ih =>
    intro h pending hmo hpend hsound hclosed hroots hfuel
    by_cases hpe : pending.isEmpty = true
    · have hploop : Heap.markLoop (fuel + 1) h pending = h := by
        simp [Heap.markLoop, hpe]
      rw [hploop]
      refine ⟨hmo, fun x => ⟨hsound x, ?_⟩⟩
      have hpn : pending = [] := List.isEmpty_iff.mp hpe
      subst hpn
      intro hx
      induction hx with
      | root hr =>
        rcases hroots _ hr with hm | hm
        · exact hm
        · simp at hm
      | step hr hy ihr =>
        rcases hclosed _ ihr _ hy with hm | hm
        · exact hm
        · simp at hm
    · have hloop : Heap.markLoop (fuel + 1) h pending
          = Heap.markLoop fuel (h.markBatch pending).1 (h.markBatch pending).2 := by
        simp [Heap.markLoop, hpe]
      have hmo2 : h0.MarksOnly (h.markBatch pending).1 :=
        marksOnly_trans hmo (markBatch_marksOnly pending h)
      have hvalidp : ∀ x ∈ pending, x.valid h = true := fun x hx => by
        rw [marksOnly_valid hmo x]
        exact reachable_valid hwfC (hpend x hx)
      have hwfh : h.wfStruct := marksOnly_wfStruct hmo hwfS
      have hpend2 : ∀ y ∈ (h.markBatch pending).2, h0.Reachable y := by
        intro y hy
        obtain ⟨x, hx, hyx⟩ := markBatch_newly y pending h hy
        have hy0 : y ∈ x.trace h0 := by
          rw [← marksOnly_trace hmo x]
          exact hyx
        exact Heap.Reachable.step (hpend x hx) hy0
      have hsound2 : ∀ x : GcThing,
          x.is_marked (h.markBatch pending).1 = true → h0.Reachable x := by
        intro x hx
        rcases markBatch_marks_sound x pending h hx with hm | hm
        · exact hsound x hm
        · exact hpend x hm
      have hclosed2 : ∀ x : GcThing, x.is_marked (h.markBatch pending).1 = true →
          ∀ y ∈ x.trace h0,
            y.is_marked (h.markBatch pending).1 = true ∨ y ∈ (h.markBatch pending).2 := by
        intro x hx y hy
        by_cases hxm : x.is_marked h = true
        · rcases hclosed x hxm y hy with hym | hyp
          · exact Or.inl (markBatch_marks_mono y pending h hym)
          · exact Or.inl
              (markBatch_pending_marked y pending h hyp (hvalidp y hyp) hwfh)
        · have hxf : x.is_marked h = false := by simpa using hxm
          have hxp : x ∈ pending := by
            rcases markBatch_marks_sound x pending h hx with hm | hm
            · rw [hm] at hxf; cases hxf
            · exact hm
          have hy2 : y ∈ x.trace h := by
            rw [marksOnly_trace hmo x]
            exact hy
          exact Or.inr (markBatch_traces_sub x pending h hxp hxf y hy2)
      have hroots2 : ∀ x ∈ h0.get_roots,
          x.is_marked (h.markBatch pending).1 = true ∨ x ∈ (h.markBatch pending).2 := by
        intro x hx
        rcases hroots x hx with hm | hm
        · exact Or.inl (markBatch_marks_mono x pending h hm)
        · exact Or.inl (markBatch_pending_marked x pending h hm (hvalidp x hm) hwfh)
      by_cases hex : ∃ x ∈ pending, x.is_marked h = false
      · obtain ⟨x, hx, hxf⟩ := hex
        have hcount : (h.markBatch pending).1.unmarkedCount < h.unmarkedCount :=
          markBatch_count_lt x pending h hx hxf (hvalidp x hx) hwfh
        rw [hloop]
        exact ih (h.markBatch pending).1 (h.markBatch pending).2 hmo2 hpend2
          hsound2 hclosed2 hroots2 (by omega)
      · have hall : ∀ x ∈ pending, x.is_marked h = true := by
          intro x hx
          by_cases hxm : x.is_marked h = true
          · exact hxm
          · exact absurd ⟨x, hx, by simpa using hxm⟩ hex
        have hbe : h.markBatch pending = (h, []) := markBatch_all_marked pending h hall
        obtain ⟨fuel2, rfl⟩ : ∃ f2, fuel = f2 + 1 := ⟨fuel - 1, by omega⟩
        have hclose : Heap.markLoop (fuel2 + 1 + 1) h pending = h := by
          rw [hloop, hbe]
          simp [Heap.markLoop]
        rw [hclose]
        refine ⟨hmo, fun x => ⟨hsound x, ?_⟩⟩
        intro hx
        induction hx with
        | root hr =>
          rcases hroots _ hr with hm | hm
          · exact hm
          · exact hall _ hm
        | step hr hy ihr =>
          rcases hclosed _ ihr _ hy with hm | hm
          · exact hm
          · exact hall _ hm

/-! ## Sweep lemmas -/

theorem sweep_pool {T : Type} (a : Arena T) : a.sweep.pool = a.pool := rfl

theorem sweep_id {T : Type} (a : Arena T) : a.sweep.id = a.id := rfl

theorem getD_true_lt_length (l : List Bool) (i : Nat)
    (hm : l.getD i false = true) : i < l.length := by
  by_contra hge
  rw [List.getD_eq_getElem?_getD, List.getElem?_eq_none (by omega)] at hm
  simp at hm

theorem sweep_free_mem {T : Type} (a : Arena T) (j : Nat) :
    j ∈ a.sweep.free ↔ j < a.capacity ∧ a.marked.getD j false = false := by
  show j ∈ (List.range a.capacity).filter (fun n => !(a.marked.getD n false))
    ↔ j < a.capacity ∧ a.marked.getD j false = false
  rw [List.mem_filter, List.mem_range]
  simp

theorem sweep_not_empty_of_marked {T : Type} (a : Arena T) (i : Nat)
    (hm : a.marked.getD i false = true) (hwf : a.wf) :
    a.sweep.is_empty = false := by
  have hil : i < a.marked.length := getD_true_lt_length a.marked i hm
  have hic : i < a.capacity := by
    unfold Arena.capacity
    rw [← hwf]
    exact hil
  have hsub : a.sweep.free.Sublist (List.range a.capacity) := List.filter_sublist _
  have hne : a.sweep.free.length ≠ a.capacity := by
    intro he
    have heq : a.sweep.free = List.range a.capacity :=
      hsub.eq_of_length (by simpa using he)
    have hmem : i ∈ a.sweep.free := by
      rw [heq]
      exact List.mem_range.mpr hic
    rw [sweep_free_mem] at hmem
    rw [hm] at hmem
    simp at hmem
  show (a.sweep.free.length == a.sweep.capacity) = false
  have hcap : a.sweep.capacity = a.capacity := rfl
  rw [hcap]
  exact beq_eq_false_iff_ne.mpr hne

theorem sweep_find_list {T : Type} (aid : Nat) :
    ∀ l : List (Arena T), (l.map Arena.id).Nodup →
      ((l.map Arena.sweep).filter (fun a => !a.is_empty)).find? (fun a => a.id == aid)
        = match l.find? (fun a => a.id == aid) with
          | some a => if a.sweep.is_empty then none else some a.sweep
          | none => none := by
  intro l
  induction l with
  | nil => intro _; rfl
  | cons b rest ih =>
    intro hnd
    rw [List.map_cons, List.nodup_cons] at hnd
    by_cases hb : (b.id == aid) = true
    · rw [findArena_cons_pos b rest aid hb]
      have haid : b.id = aid := by simpa using hb
      by_cases he : b.sweep.is_empty = true
      · rw [List.map_cons, List.filter_cons, he]
        simp only [Bool.not_true, if_neg (by simp : ¬(false = true)), he, if_pos]
        rw [List.find?_eq_none]
        intro x hx
        have hx2 : x ∈ rest.map Arena.sweep := List.mem_of_mem_filter hx
        obtain ⟨c, hc, rfl⟩ := List.mem_map.mp hx2
        intro hcx
        have hcid : c.id = aid := by simpa [sweep_id] using hcx
        exact hnd.1 (by rw [haid, ← hcid]; exact List.mem_map_of_mem _ hc)
      · have hef : b.sweep.is_empty = false := by simpa using he
        rw [List.map_cons, List.filter_cons, hef]
        simp only [Bool.not_false, if_pos]
        rw [findArena_cons_pos _ _ aid (by rw [sweep_id]; exact hb), hef]
        simp
    · have hbf : (b.id == aid) = false := by simpa using hb
      rw [findArena_cons_neg b rest aid hbf]
      by_cases he : b.sweep.is_empty = true
      · rw [List.map_cons, List.filter_cons, he]
        simp only [Bool.not_true, if_neg (by simp : ¬(false = true))]
        exact ih hnd.2
      · have hef : b.sweep.is_empty = false := by simpa using he
        rw [List.map_cons, List.filter_cons, hef]
        simp only [Bool.not_false, if_pos]
        rw [findArena_cons_neg _ _ aid (by rw [sweep_id]; exact hbf)]
        exact ih hnd.2

theorem sweep_findArena {T : Type} (s : ArenaSet T) (aid : Nat)
    (hnd : (s.arenas.map Arena.id).Nodup) :
    (s.sweep).findArena aid
      = match s.findArena aid with
        | some a => if a.sweep.is_empty then none else some a.sweep
        | none => none :=
  sweep_find_list aid s.arenas hnd

theorem sweep_preserves_marked {T : Type} (s : ArenaSet T) (p : ArenaPtr)
    (hwf : s.wf) (hm : s.isMarkedAt p = true) :
    (s.sweep).derefAt p = s.derefAt p ∧
    ((s.sweep).findArena p.arenaId ≠ none) ∧
    (∀ a2, (s.sweep).findArena p.arenaId = some a2 → p.index ∉ a2.free) := by
  cases hA : s.findArena p.arenaId with
  | none => rw [isMarkedAt_of_find_none s p hA] at hm; simp at hm
  | some a =>
    rw [isMarkedAt_of_find s p a hA] at hm
    have hA' : s.arenas.find? (fun x => x.id == p.arenaId) = some a := hA
    have hamem := List.mem_of_find?_eq_some hA'
    have hawf : a.wf := hwf.2 a hamem
    have hne : a.sweep.is_empty = false := sweep_not_empty_of_marked a p.index hm hawf
    have hfind : (s.sweep).findArena p.arenaId = some a.sweep := by
      rw [sweep_findArena s p.arenaId hwf.1, hA]
      show (if a.sweep.is_empty = true then none else some a.sweep) = some a.sweep
      rw [hne]
      simp
    refine ⟨?_, ?_, ?_⟩
    · rw [derefAt_of_find _ _ _ hfind, derefAt_of_find _ _ _ hA, sweep_pool]
    · rw [hfind]; simp
    · intro a2 ha2
      rw [hfind] at ha2
      have ha2e : a2 = a.sweep := (Option.some.inj ha2).symm
      subst ha2e
      rw [sweep_free_mem]
      have hmm : a.marked.getD p.index false = true := hm
      intro hcon
      rw [hmm] at hcon
      simp at hcon

theorem sweep_frees_unmarked {T : Type} (s : ArenaSet T) (p : ArenaPtr)
    (hnd : (s.arenas.map Arena.id).Nodup)
    (hm : s.isMarkedAt p = false) (hv : s.validAt p = true) :
    (s.sweep).findArena p.arenaId = none ∨
      ∃ a2, (s.sweep).findArena p.arenaId = some a2 ∧ p.index ∈ a2.free := by
  cases hA : s.findArena p.arenaId with
  | none => rw [validAt_of_find_none s p hA] at hv; simp at hv
  | some a =>
    rw [isMarkedAt_of_find s p a hA] at hm
    have hlt : p.index < a.pool.length := by
      rw [validAt_of_find s p a hA] at hv
      simpa using hv
    by_cases he : a.sweep.is_empty = true
    · refine Or.inl ?_
      rw [sweep_findArena s p.arenaId hnd, hA]
      show (if a.sweep.is_empty = true then none else some a.sweep) = none
      rw [he]
      simp
    · have hef : a.sweep.is_empty = false := by simpa using he
      refine Or.inr ⟨a.sweep, ?_, ?_⟩
      · rw [sweep_findArena s p.arenaId hnd, hA]
        show (if a.sweep.is_empty = true then none else some a.sweep) = some a.sweep
        rw [hef]
        simp
      · rw [sweep_free_mem]
        exact ⟨hlt, hm⟩

/-! ## `Heap::collect_garbage` -/

theorem isMarkedAt_false_of_allUnmarked {T : Type} (s : ArenaSet T)
    (hum : s.allUnmarked) (p : ArenaPtr) : s.isMarkedAt p = false := by
  cases hA : s.findArena p.arenaId with
  | none => exact isMarkedAt_of_find_none s p hA
  | some a =>
    rw [isMarkedAt_of_find s p a hA]
    have hA' : s.arenas.find? (fun x => x.id == p.arenaId) = some a := hA
    exact getD_false_of_all_false a.marked
      (hum a (List.mem_of_find?_eq_some hA')) p.index

theorem is_marked_false_of_allUnmarked (h : Heap) (hum : h.allUnmarked)
    (x : GcThing) : x.is_marked h = false := by
  cases x with
  | Cons p => exact isMarkedAt_false_of_allUnmarked _ hum.1 p
  | String p => exact isMarkedAt_false_of_allUnmarked _ hum.2.1 p
  | Activation p => exact isMarkedAt_false_of_allUnmarked _ hum.2.2.1 p
  | Procedure p => exact isMarkedAt_false_of_allUnmarked _ hum.2.2.2 p

theorem reachable_congr_fields {h h2 : Heap} (hroots : h2.get_roots = h.get_roots)
    (htrace : ∀ t : GcThing, t.trace h2 = t.trace h) (x : GcThing) :
    h2.Reachable x ↔ h.Reachable x := by
  constructor
  · intro hx
    induction hx with
    | root hr => exact Heap.Reachable.root (by rwa [hroots] at hr)
    | step hr hy ih =>
      refine Heap.Reachable.step ih ?_
      rwa [htrace _] at hy
  · intro hx
    induction hx with
    | root hr =>
      refine Heap.Reachable.root ?_
      rwa [hroots]
    | step hr hy ih =>
      refine Heap.Reachable.step ih ?_
      rwa [htrace _]

theorem derefAt_isSome_of_valid {T : Type} (s : ArenaSet T) (p : ArenaPtr)
    (hv : s.validAt p = true) : (s.derefAt p).isSome = true := by
  cases hA : s.findArena p.arenaId with
  | none => rw [validAt_of_find_none s p hA] at hv; simp at hv
  | some a =>
    have hlt : p.index < a.pool.length := by
      rw [validAt_of_find s p a hA] at hv
      simpa using hv
    rw [derefAt_of_find _ _ _ hA]
    simp [List.getElem?_eq_getElem hlt]

/-- The decomposition of `Heap::collect_garbage`: the marked heap `H`
after the worklist loop marks exactly the reachable things, and the
result is `H` with each arena set swept. -/
theorem collect_garbage_analysis (h : Heap) (hS : h.wfStruct) (hC : h.wfClosed)
    (hU : h.allUnmarked) :
    ∃ H : Heap,
      (h.reset_gc_pressure).MarksOnly H ∧
      (∀ x : GcThing, x.is_marked H = true ↔ h.Reachable x) ∧
      h.collect_garbage.cons_cells = H.cons_cells.sweep ∧
      h.collect_garbage.strings = H.strings.sweep ∧
      h.collect_garbage.activations = H.activations.sweep ∧
      h.collect_garbage.procedures = H.procedures.sweep ∧
      h.collect_garbage.locations = h.locations ∧
      h.collect_garbage.roots = h.roots ∧
      h.collect_garbage.symbol_table = h.symbol_table ∧
      h.collect_garbage.global_activation = h.global_activation ∧
      h.collect_garbage.environment = h.environment ∧
      h.collect_garbage.allocations = 0 ∧
      h.collect_garbage.allocations_threshold
        = (h.reset_gc_pressure).allocations_threshold := by
  have hS1 : (h.reset_gc_pressure).wfStruct := hS
  have hC1 : (h.reset_gc_pressure).wfClosed := hC
  have hU1 : (h.reset_gc_pressure).allUnmarked := hU
  obtain ⟨hmo, hiff⟩ := markLoop_spec (h.reset_gc_pressure) hS1 hC1
    ((h.reset_gc_pressure).unmarkedCount + 2) (h.reset_gc_pressure)
    (h.reset_gc_pressure).get_roots
    (marksOnly_refl _)
    (fun x hx => Heap.Reachable.root hx)
    (fun x hx => by
      rw [is_marked_false_of_allUnmarked _ hU1 x] at hx
      simp at hx)
    (fun x hx => by
      rw [is_marked_false_of_allUnmarked _ hU1 x] at hx
      simp at hx)
    (fun x hx => Or.inr hx)
    (Nat.le_refl _)
  obtain ⟨m1, m2, m3, m4, m5, m6, m7, m8, m9, m10, m11⟩ := hmo
  refine ⟨_, ⟨m1, m2, m3, m4, m5, m6, m7, m8, m9, m10, m11⟩, ?_,
    rfl, rfl, rfl, rfl, m8, m5, m6, m7, m9, m10, m11⟩
  intro x
  exact (hiff x).trans (@reachable_congr_fields h h.reset_gc_pressure rfl (fun t => rfl) x)

/-- Claim C1 (amended): for every structurally well-formed, pointer-closed
heap with clear mark bits, after `collect_garbage` every slot handle that
was transitively reachable from an enumerated root still dereferences to
the same object; and every valid but unreachable handle has its slot index
placed on its arena's free list by the sweep — after the collection the
arena either still exists with the index on its free list, or, having
become entirely empty, was released from its arena set. -/
theorem C1_collect_garbage (h : Heap) (hS : h.wfStruct) (hC : h.wfClosed)
    (hU : h.allUnmarked) :
    (∀ x : GcThing, h.Reachable x →
      (h.collect_garbage).derefThing x = h.derefThing x ∧
      (h.derefThing x).isSome = true) ∧
    (∀ x : GcThing, x.valid h = true → ¬h.Reachable x →
      (h.collect_garbage).arenaGone x ∨ (h.collect_garbage).slotFreed x) := by
  obtain ⟨H, hmo, hiff, hc, hs2, ha2, hp2, -, -, -, -, -, -, -⟩ :=
    collect_garbage_analysis h hS hC hU
  have hwfH : H.wfStruct := marksOnly_wfStruct hmo hS
  constructor
  · intro x hx
    have hv : x.valid h = true := reachable_valid hC hx
    have hm : x.is_marked H = true := (hiff x).mpr hx
    cases x with
    | Cons p =>
      obtain ⟨hd, -, -⟩ := sweep_preserves_marked H.cons_cells p hwfH.1 hm
      constructor
      · simp only [Heap.derefThing, Heap.derefCons]
        rw [hc, hd, derefAt_congr hmo.1 p]
        rfl
      · simp only [Heap.derefThing, Heap.derefCons, Option.isSome_map']
        exact derefAt_isSome_of_valid _ _ hv
    | String p =>
      obtain ⟨hd, -, -⟩ := sweep_preserves_marked H.strings p hwfH.2.1 hm
      constructor
      · simp only [Heap.derefThing, Heap.derefString]
        rw [hs2, hd, derefAt_congr hmo.2.1 p]
        rfl
      · simp only [Heap.derefThing, Heap.derefString, Option.isSome_map']
        exact derefAt_isSome_of_valid _ _ hv
    | Activation p =>
      obtain ⟨hd, -, -⟩ := sweep_preserves_marked H.activations p hwfH.2.2.1 hm
      constructor
      · simp only [Heap.derefThing, Heap.derefActivation]
        rw [ha2, hd, derefAt_congr hmo.2.2.1 p]
        rfl
      · simp only [Heap.derefThing, Heap.derefActivation, Option.isSome_map']
        exact derefAt_isSome_of_valid _ _ hv
    | Procedure p =>
      obtain ⟨hd, -, -⟩ := sweep_preserves_marked H.procedures p hwfH.2.2.2 hm
      constructor
      · simp only [Heap.derefThing, Heap.derefProcedure]
        rw [hp2, hd, derefAt_congr hmo.2.2.2.1 p]
        rfl
      · simp only [Heap.derefThing, Heap.derefProcedure, Option.isSome_map']
        exact derefAt_isSome_of_valid _ _ hv
  · intro x hv hnr
    have hm2 : x.is_marked H = false := by
      cases hb : x.is_marked H with
      | true => exact absurd ((hiff x).mp hb) hnr
      | false => rfl
    have hvH : x.valid H = true := by
      rw [marksOnly_valid hmo x]
      exact hv
    cases x with
    | Cons p =>
      rcases sweep_frees_unmarked H.cons_cells p hwfH.1.1 hm2 hvH with hgone | hfree
      · refine Or.inl ?_
        show h.collect_garbage.cons_cells.findArena p.arenaId = none
        rw [hc]
        exact hgone
      · obtain ⟨a2, hfind, hmem⟩ := hfree
        refine Or.inr ?_
        simp only [Heap.slotFreed]
        rw [hc, hfind]
        exact hmem
    | String p =>
      rcases sweep_frees_unmarked H.strings p hwfH.2.1.1 hm2 hvH with hgone | hfree
      · refine Or.inl ?_
        show h.collect_garbage.strings.findArena p.arenaId = none
        rw [hs2]
        exact hgone
      · obtain ⟨a2, hfind, hmem⟩ := hfree
        refine Or.inr ?_
        simp only [Heap.slotFreed]
        rw [hs2, hfind]
        exact hmem
    | Activation p =>
      rcases sweep_frees_unmarked H.activations p hwfH.2.2.1.1 hm2 hvH with hgone | hfree
      · refine Or.inl ?_
        show h.collect_garbage.activations.findArena p.arenaId = none
        rw [ha2]
        exact hgone
      · obtain ⟨a2, hfind, hmem⟩ := hfree
        refine Or.inr ?_
        simp only [Heap.slotFreed]
        rw [ha2, hfind]
        exact hmem
    | Procedure p =>
      rcases sweep_frees_unmarked H.procedures p hwfH.2.2.2.1 hm2 hvH with hgone | hfree
      · refine Or.inl ?_
        show h.collect_garbage.procedures.findArena p.arenaId = none
        rw [hp2]
        exact hgone
      · obtain ⟨a2, hfind, hmem⟩ := hfree
        refine Or.inr ?_
        simp only [Heap.slotFreed]
        rw [hp2, hfind]
        exact hmem

/-! ## C1: counterexample to the claim as stated, and witness -/

theorem witnessHeap_reachable_only (x : GcThing)
    (hx : witnessHeap.Reachable x) : x = GcThing.Activation ⟨0, 0⟩ := by
  induction hx with
  | root hr =>
    have hroots : witnessHeap.get_roots = [GcThing.Activation ⟨0, 0⟩] := rfl
    rw [hroots] at hr
    simpa using hr
  | step hr hy ih =>
    subst ih
    have htr : (GcThing.Activation (⟨0, 0⟩ : ArenaPtr)).trace witnessHeap = [] := rfl
    rw [htr] at hy
    simp at hy

/-- Counterexample to claim C1 as stated: in `witnessHeap` the cons cell
at `(0,0)` is allocated and unreachable, but after `collect_garbage` its
slot index is *not* on its arena's free list — the arena became entirely
empty during the sweep and was released from the arena set, so no free
list for it exists. -/
theorem C1_counterexample :
    (GcThing.Cons ⟨0, 0⟩).valid witnessHeap = true ∧
    ¬ witnessHeap.Reachable (GcThing.Cons ⟨0, 0⟩) ∧
    ¬ (witnessHeap.collect_garbage).slotFreed (GcThing.Cons ⟨0, 0⟩) := by
  refine ⟨by decide, ?_, ?_⟩
  · intro hr
    exact absurd (witnessHeap_reachable_only _ hr) (by decide)
  · intro hsf
    have hnone : (witnessHeap.collect_garbage).cons_cells.findArena 0 = none := by
      decide
    simp only [Heap.slotFreed] at hsf
    rw [hnone] at hsf
    exact hsf

/-- Witness for the amended C1 at the concrete heap: the reachable global
activation keeps its dereference, and the unreachable cons cell's arena is
gone or its index is freed. -/
theorem C1_collect_garbage_witness :
    ((witnessHeap.collect_garbage).derefThing (GcThing.Activation ⟨0, 0⟩)
        = witnessHeap.derefThing (GcThing.Activation ⟨0, 0⟩) ∧
      (witnessHeap.derefThing (GcThing.Activation ⟨0, 0⟩)).isSome = true) ∧
    ((witnessHeap.collect_garbage).arenaGone (GcThing.Cons ⟨0, 0⟩) ∨
      (witnessHeap.collect_garbage).slotFreed (GcThing.Cons ⟨0, 0⟩)) := by
  have hmain := C1_collect_garbage witnessHeap (by decide) (by decide) (by decide)
  refine ⟨hmain.1 _ (Heap.Reachable.root (by decide)), hmain.2 _ (by decide) ?_⟩
  intro hr
  exact absurd (witnessHeap_reachable_only _ hr) (by decide)

/-! ## C3: the GC pressure policy -/

theorem markLoop_counters : ∀ (fuel : Nat) (h : Heap) (pending : List GcThing),
    (Heap.markLoop fuel h pending).allocations = h.allocations ∧
    (Heap.markLoop fuel h pending).allocations_threshold = h.allocations_threshold := by
  intro fuel
  induction fuel with
  | zero => intro h pending; exact ⟨rfl, rfl⟩
  | succ fuel ih =>
    intro h pending
    by_cases hpe : pending.isEmpty = true
    · simp [Heap.markLoop, hpe]
    · have hloop : Heap.markLoop (fuel + 1) h pending
          = Heap.markLoop fuel (h.markBatch pending).1 (h.markBatch pending).2 := by
        simp [Heap.markLoop, hpe]
      rw [hloop]
      have hmb := markBatch_marksOnly pending h
      have h10 := hmb.2.2.2.2.2.2.2.2.2.1
      have h11 := hmb.2.2.2.2.2.2.2.2.2.2
      exact ⟨(ih _ _).1.trans h10, (ih _ _).2.trans h11⟩

/-- After any collection the allocation counter is zero and the threshold
is the sum over the four arena sets of `(capacity / 2) * arena_count`,
computed from the arena counts at the start of the collection. -/
theorem collect_counters (g : Heap) :
    (g.collect_garbage).allocations = 0 ∧
    (g.collect_garbage).allocations_threshold
      = ((g.cons_cells.capacity / 2) * g.cons_cells.arenas.length)
        + ((g.strings.capacity / 2) * g.strings.arenas.length)
        + ((g.activations.capacity / 2) * g.activations.arenas.length)
        + ((g.procedures.capacity / 2) * g.procedures.arenas.length) := by
  have hml := markLoop_counters ((g.reset_gc_pressure).unmarkedCount + 2)
    (g.reset_gc_pressure) (g.reset_gc_pressure).get_roots
  exact ⟨hml.1, hml.2⟩

theorem increase_below_threshold (h : Heap) (k : Nat)
    (hk : k + 1 ≤ h.allocations_threshold) :
    Heap.increase_gc_pressure { h with allocations := k }
      = { h with allocations := k + 1 } := by
  have hfneg : ¬(({ h with allocations := k + 1 } : Heap).is_too_much_pressure = true) := by
    unfold Heap.is_too_much_pressure
    simp
    omega
  simp only [Heap.increase_gc_pressure]
  rw [if_neg hfneg]

theorem increase_at_threshold (h : Heap)
    (hk : h.allocations = h.allocations_threshold) :
    Heap.increase_gc_pressure h
      = ({ h with allocations := h.allocations_threshold + 1 }).collect_garbage := by
  have hpos : ({ h with allocations := h.allocations + 1 } : Heap).is_too_much_pressure = true := by
    unfold Heap.is_too_much_pressure
    simp
    omega
  simp only [Heap.increase_gc_pressure]
  rw [if_pos hpos, hk]

theorem iterate_increase (h : Heap) (h0 : h.allocations = 0) :
    ∀ k, k ≤ h.allocations_threshold →
      (Heap.increase_gc_pressure)^[k] h = { h with allocations := k } := by
  intro k
  induction k with
  | zero =>
    intro _
    rw [Function.iterate_zero_apply, ← h0]
  | succ k ih =>
    intro hk
    rw [Function.iterate_succ_apply', ih (Nat.le_of_succ_le hk)]
    exact increase_below_threshold h k hk

/-- Claim C3: the GC pressure threshold is recomputed at every reset as
the sum over the four arena sets of `(capacity / 2) * arena_count`; from
a fresh pressure counter, `N = allocations_threshold` consecutive
allocations trigger no collection (the state is just the bumped counter),
and the next allocation triggers exactly one collection, after which the
counter is zero and the threshold is the recomputed sum. -/
theorem C3_gc_pressure (h : Heap) (h0 : h.allocations = 0) :
    (∀ g : Heap, (g.reset_gc_pressure).allocations = 0 ∧
      (g.reset_gc_pressure).allocations_threshold
        = ((g.cons_cells.capacity / 2) * g.cons_cells.arenas.length)
          + ((g.strings.capacity / 2) * g.strings.arenas.length)
          + ((g.activations.capacity / 2) * g.activations.arenas.length)
          + ((g.procedures.capacity / 2) * g.procedures.arenas.length)) ∧
    (∀ k, k ≤ h.allocations_threshold →
      (Heap.increase_gc_pressure)^[k] h = { h with allocations := k }) ∧
    ((Heap.increase_gc_pressure)^[h.allocations_threshold + 1] h
      = ({ h with allocations := h.allocations_threshold + 1 }).collect_garbage) ∧
    ((Heap.increase_gc_pressure)^[h.allocations_threshold + 1] h).allocations = 0 ∧
    ((Heap.increase_gc_pressure)^[h.allocations_threshold + 1] h).allocations_threshold
      = ((h.cons_cells.capacity / 2) * h.cons_cells.arenas.length)
        + ((h.strings.capacity / 2) * h.strings.arenas.length)
        + ((h.activations.capacity / 2) * h.activations.arenas.length)
        + ((h.procedures.capacity / 2) * h.procedures.arenas.length) := by
  have hstep : (Heap.increase_gc_pressure)^[h.allocations_threshold + 1] h
      = ({ h with allocations := h.allocations_threshold + 1 }).collect_garbage := by
    rw [Function.iterate_succ_apply',
      iterate_increase h h0 h.allocations_threshold (Nat.le_refl _)]
    exact increase_at_threshold { h with allocations := h.allocations_threshold } rfl
  refine ⟨fun g => ⟨rfl, rfl⟩, iterate_increase h h0, hstep, ?_, ?_⟩
  · rw [hstep]
    exact (collect_counters _).1
  · rw [hstep]
    exact (collect_counters _).2

/-- Witness for C3 at the concrete heap (threshold 0: the very first
allocation already collects and resets). -/
theorem C3_gc_pressure_witness :
    ((Heap.increase_gc_pressure)^[witnessHeap.allocations_threshold + 1]
        witnessHeap).allocations = 0 :=
  (C3_gc_pressure witnessHeap rfl).2.2.2.1

/-! ## C8: the source-location registry pins pairs for the heap's
lifetime -/

theorem markLoopMarksOnly : ∀ (fuel : Nat) (h : Heap) (pending : List GcThing),
    h.MarksOnly (Heap.markLoop fuel h pending) := by
  intro fuel
  induction fuel with
  | zero => intro h pending; exact marksOnly_refl h
  | succ fuel ih =>
    intro h pending
    by_cases hpe : pending.isEmpty = true
    · simp [Heap.markLoop, hpe]
      exact marksOnly_refl h
    · have hloop : Heap.markLoop (fuel + 1) h pending
          = Heap.markLoop fuel (h.markBatch pending).1 (h.markBatch pending).2 := by
        simp [Heap.markLoop, hpe]
      rw [hloop]
      exact marksOnly_trans (markBatch_marksOnly pending h) (ih _ _)

theorem collect_locations (g : Heap) :
    (g.collect_garbage).locations = g.locations := by
  have hml := markLoopMarksOnly ((g.reset_gc_pressure).unmarkedCount + 2)
    (g.reset_gc_pressure) (g.reset_gc_pressure).get_roots
  exact hml.2.2.2.2.2.2.2.1

theorem increase_locations (g : Heap) :
    (g.increase_gc_pressure).locations = g.locations := by
  simp only [Heap.increase_gc_pressure]
  by_cases hc : ({ g with allocations := g.allocations + 1 } : Heap).is_too_much_pressure = true
  · rw [if_pos hc]
    rw [collect_locations]
  · rw [if_neg hc]

theorem allocate_cons_locations (h : Heap) (r : ArenaPtr × Heap)
    (hr : h.allocate_cons = some r) : r.2.locations = h.locations := by
  unfold Heap.allocate_cons at hr
  cases hA : (h.on_allocation).cons_cells.allocate with
  | none => simp [hA] at hr
  | some x =>
    obtain ⟨q, s2⟩ := x
    simp only [hA] at hr
    have he := Option.some.inj hr
    rw [← he]
    exact increase_locations h

theorem allocate_string_locations (h : Heap) (r : ArenaPtr × Heap)
    (hr : h.allocate_string = some r) : r.2.locations = h.locations := by
  unfold Heap.allocate_string at hr
  cases hA : (h.on_allocation).strings.allocate with
  | none => simp [hA] at hr
  | some x =>
    obtain ⟨q, s2⟩ := x
    simp only [hA] at hr
    have he := Option.some.inj hr
    rw [← he]
    exact increase_locations h

theorem allocate_activation_locations (h : Heap) (r : ArenaPtr × Heap)
    (hr : h.allocate_activation = some r) : r.2.locations = h.locations := by
  unfold Heap.allocate_activation at hr
  cases hA : (h.on_allocation).activations.allocate with
  | none => simp [hA] at hr
  | some x =>
    obtain ⟨q, s2⟩ := x
    simp only [hA] at hr
    have he := Option.some.inj hr
    rw [← he]
    exact increase_locations h

theorem allocate_procedure_locations (h : Heap) (r : ArenaPtr × Heap)
    (hr : h.allocate_procedure = some r) : r.2.locations = h.locations := by
  unfold Heap.allocate_procedure at hr
  cases hA : (h.on_allocation).procedures.allocate with
  | none => simp [hA] at hr
  | some x =>
    obtain ⟨q, s2⟩ := x
    simp only [hA] at hr
    have he := Option.some.inj hr
    rw [← he]
    exact increase_locations h

theorem get_or_create_symbol_locations (h : Heap) (s : String)
    (r : HeapValue × Heap) (hr : h.get_or_create_symbol s = some r) :
    r.2.locations = h.locations := by
  unfold Heap.get_or_create_symbol at hr
  cases hF : (h.symbol_table.find? (fun p => p.1 == s)).map (fun p => p.2) with
  | some sym_ptr =>
    rw [hF] at hr
    have he := Option.some.inj hr
    rw [← he]
    rfl
  | none =>
    rw [hF] at hr
    cases hA : h.allocate_string with
    | none => simp [hA] at hr
    | some x =>
      obtain ⟨q, h1⟩ := x
      simp only [hA] at hr
      have he := Option.some.inj hr
      rw [← he]
      exact allocate_string_locations h (q, h1) hA

theorem map_fst_replace {α β : Type} [DecidableEq α] (k : α) (v : β)
    (m : List (α × β)) :
    (m.map (fun p => if p.1 = k then (p.1, v) else p)).map Prod.fst
      = m.map Prod.fst := by
  rw [List.map_map]
  refine List.map_congr_left (fun p hp => ?_)
  by_cases hpk : p.1 = k <;> simp [hpk]

theorem insertAssoc_keys_superset {α β : Type} [DecidableEq α] (k : α) (v : β)
    (m : List (α × β)) (k2 : α) (hk : k2 ∈ m.map Prod.fst) :
    k2 ∈ (insertAssoc k v m).map Prod.fst := by
  unfold insertAssoc
  by_cases hc : m.any (fun p => decide (p.1 = k)) = true
  · rw [if_pos hc, map_fst_replace]
    exact hk
  · rw [if_neg hc, List.map_append]
    exact List.mem_append_left _ hk

theorem insertAssoc_key_mem {α β : Type} [DecidableEq α] (k : α) (v : β)
    (m : List (α × β)) : k ∈ (insertAssoc k v m).map Prod.fst := by
  unfold insertAssoc
  by_cases hc : m.any (fun p => decide (p.1 = k)) = true
  · rw [if_pos hc, map_fst_replace]
    obtain ⟨p, hp, hpe⟩ := List.any_eq_true.mp hc
    have hpk : p.1 = k := of_decide_eq_true hpe
    rw [← hpk]
    exact List.mem_map_of_mem _ hp
  · rw [if_neg hc, List.map_append]
    exact List.mem_append_right _ (by simp)

theorem applyOp_locations_keys (h : Heap) (op : HeapOp) (h2 : Heap)
    (happ : h.applyOp op = some h2) (p : ArenaPtr)
    (hp : p ∈ h.locations.map Prod.fst) : p ∈ h2.locations.map Prod.fst := by
  cases op with
  | allocCons =>
    simp only [Heap.applyOp] at happ
    cases hA : h.allocate_cons with
    | none => rw [hA] at happ; simp at happ
    | some r =>
      rw [hA] at happ
      have he := Option.some.inj happ
      rw [← he, allocate_cons_locations h r hA]
      exact hp
  | allocString =>
    simp only [Heap.applyOp] at happ
    cases hA : h.allocate_string with
    | none => rw [hA] at happ; simp at happ
    | some r =>
      rw [hA] at happ
      have he := Option.some.inj happ
      rw [← he, allocate_string_locations h r hA]
      exact hp
  | allocActivation =>
    simp only [Heap.applyOp] at happ
    cases hA : h.allocate_activation with
    | none => rw [hA] at happ; simp at happ
    | some r =>
      rw [hA] at happ
      have he := Option.some.inj happ
      rw [← he, allocate_activation_locations h r hA]
      exact hp
  | allocProcedure =>
    simp only [Heap.applyOp] at happ
    cases hA : h.allocate_procedure with
    | none => rw [hA] at happ; simp at happ
    | some r =>
      rw [hA] at happ
      have he := Option.some.inj happ
      rw [← he, allocate_procedure_locations h r hA]
      exact hp
  | collect =>
    have he := Option.some.inj happ
    rw [← he, collect_locations]
    exact hp
  | pressure =>
    have he := Option.some.inj happ
    rw [← he, increase_locations]
    exact hp
  | addRootOp t =>
    have he := Option.some.inj happ
    rw [← he]
    exact hp
  | dropRootOp t =>
    have he := Option.some.inj happ
    rw [← he]
    exact hp
  | globalActivationOp =>
    have he := Option.some.inj happ
    rw [← he]
    exact hp
  | enlocateOp loc q =>
    have he := Option.some.inj happ
    rw [← he]
    exact insertAssoc_keys_superset q loc h.locations p hp
  | symbolOp s =>
    simp only [Heap.applyOp] at happ
    cases hA : h.get_or_create_symbol s with
    | none => rw [hA] at happ; simp at happ
    | some r =>
      rw [hA] at happ
      have he := Option.some.inj happ
      rw [← he, get_or_create_symbol_locations h s r hA]
      exact hp
  | extendEnvOp names =>
    have he := Option.some.inj happ
    rw [← he]
    exact hp
  | popEnvOp =>
    simp only [Heap.applyOp] at happ
    cases hA : h.environment.pop with
    | none => rw [hA] at happ; simp at happ
    | some e =>
      rw [hA] at happ
      have he := Option.some.inj happ
      rw [← he]
      exact hp
  | setCarOp q v =>
    simp only [Heap.applyOp] at happ
    cases hA : h.derefCons q with
    | none => rw [hA] at happ; simp at happ
    | some c =>
      rw [hA] at happ
      have he := Option.some.inj happ
      rw [← he]
      exact hp
  | setCdrOp q v =>
    simp only [Heap.applyOp] at happ
    cases hA : h.derefCons q with
    | none => rw [hA] at happ; simp at happ
    | some c =>
      rw [hA] at happ
      have he := Option.some.inj happ
      rw [← he]
      exact hp

theorem applyOps_locations_keys :
    ∀ (ops : List HeapOp) (h h2 : Heap), h.applyOps ops = some h2 →
      ∀ p ∈ h.locations.map Prod.fst, p ∈ h2.locations.map Prod.fst := by
  intro ops
  induction ops with
  | nil =>
    intro h h2 happ p hp
    have he := Option.some.inj happ
    rw [← he]
    exact hp
  | cons op rest ih =>
    intro h h2 happ p hp
    simp only [Heap.applyOps] at happ
    cases hA : h.applyOp op with
    | none => rw [hA] at happ; simp at happ
    | some hmid =>
      rw [hA] at happ
      exact ih hmid h2 happ p (applyOp_locations_keys h op hmid hA p hp)

theorem located_mem_roots (h : Heap) (p : ArenaPtr)
    (hp : p ∈ h.locations.map Prod.fst) : GcThing.Cons p ∈ h.get_roots := by
  obtain ⟨kv, hkv, hke⟩ := List.mem_map.mp hp
  unfold Heap.get_roots
  refine List.mem_append_right _ ?_
  rw [← hke]
  exact List.mem_map_of_mem _ hkv

/-- Claim C8: a pair registered via `enlocate` has its handle among the
registry keys; no heap operation removes a registration; every registry
key is enumerated as a root of every collection; and a collection on a
well-formed heap neither changes such a pair's dereference nor returns
its slot to a free list. -/
theorem C8_enlocate_pins :
    (∀ (h : Heap) (loc : Location) (p : ArenaPtr),
      p ∈ (h.enlocate loc p).locations.map Prod.fst) ∧
    (∀ (ops : List HeapOp) (h h2 : Heap), h.applyOps ops = some h2 →
      ∀ p ∈ h.locations.map Prod.fst, p ∈ h2.locations.map Prod.fst) ∧
    (∀ (h : Heap) (p : ArenaPtr), p ∈ h.locations.map Prod.fst →
      GcThing.Cons p ∈ h.get_roots) ∧
    (∀ h : Heap, h.wfStruct → h.wfClosed → h.allUnmarked →
      ∀ p ∈ h.locations.map Prod.fst,
        (h.collect_garbage).derefCons p = h.derefCons p ∧
        (h.derefCons p).isSome = true ∧
        (h.collect_garbage).cons_cells.findArena p.arenaId ≠ none ∧
        (∀ a, (h.collect_garbage).cons_cells.findArena p.arenaId = some a →
          p.index ∉ a.free)) := by
  refine ⟨fun h loc p => insertAssoc_key_mem p loc h.locations,
    applyOps_locations_keys, located_mem_roots, ?_⟩
  intro h hS hC hU p hp
  have hreach : h.Reachable (GcThing.Cons p) :=
    Heap.Reachable.root (located_mem_roots h p hp)
  have hv : (GcThing.Cons p).valid h = true := reachable_valid hC hreach
  obtain ⟨H, hmo, hiff, hc, -, -, -, -, -, -, -, -, -, -⟩ :=
    collect_garbage_analysis h hS hC hU
  have hwfH : H.wfStruct := marksOnly_wfStruct hmo hS
  have hm : (GcThing.Cons p).is_marked H = true := (hiff _).mpr hreach
  obtain ⟨hd, hne, hnf⟩ := sweep_preserves_marked H.cons_cells p hwfH.1 hm
  refine ⟨?_, ?_, ?_, ?_⟩
  · show h.collect_garbage.cons_cells.derefAt p = h.cons_cells.derefAt p
    rw [hc, hd, derefAt_congr hmo.1 p]
    rfl
  · exact derefAt_isSome_of_valid _ _ hv
  · rw [hc]
    exact hne
  · intro a ha
    rw [hc] at ha
    exact hnf a ha

/-- Witness for C8 at the concrete located heap: the registered pair is
enumerated as a root and survives a collection unchanged. -/
theorem C8_enlocate_pins_witness :
    GcThing.Cons (⟨0, 0⟩ : ArenaPtr) ∈ locHeap.get_roots ∧
    (locHeap.collect_garbage).derefCons ⟨0, 0⟩ = locHeap.derefCons ⟨0, 0⟩ := by
  refine ⟨C8_enlocate_pins.2.2.1 locHeap ⟨0, 0⟩ (by decide), ?_⟩
  exact (C8_enlocate_pins.2.2.2 locHeap (by decide) (by decide) (by decide)
    ⟨0, 0⟩ (by decide)).1

end Oxischeme
